import Mathlib

/-! # plumbot: commit notifier

A shallow embedding of `plumbot.go` (fetch, filter, format, dedupe, send,
persist) together with the properties of its natural-language specification.

Go strings are modelled as lists of characters (`Str`); every string the
program handles is either decoded from JSON or written by the program, so it
is valid UTF-8 and a list of code points loses nothing.
-/

namespace Plumbot

/-- Go `string`, as the list of its code points. -/
abbrev Str := List Char

/-! ## Go standard library: `strings` -/

/-- Go `unicode.IsSpace`: the Latin-1 cases of its `switch`, then the
`White_Space` table above Latin-1. -/
def isSpace (r : Char) : Bool :=
  let n := r.toNat
  if n ≤ 0xFF then
    n == 0x09 || n == 0x0A || n == 0x0B || n == 0x0C || n == 0x0D || n == 0x20 ||
      n == 0x85 || n == 0xA0
  else
    n == 0x1680 || (0x2000 ≤ n && n ≤ 0x200A) || n == 0x2028 || n == 0x2029 ||
      n == 0x202F || n == 0x205F || n == 0x3000

/-- Go `strings.TrimSpace`: leading and trailing white space removed. -/
def TrimSpace (s : Str) : Str :=
  ((s.dropWhile isSpace).reverse.dropWhile isSpace).reverse

/-- Go `strings.SplitN(s, "\n", 2)`: `[s]` when `s` has no line break, otherwise
the text before the first line break and the text after it. -/
def SplitN2 : Str → List Str
  | [] => [[]]
  | c :: s =>
    if c = '\n' then [[], s]
    else
      match SplitN2 s with
      | [] => [[c]]
      | x :: xs => (c :: x) :: xs

/-! ## Go standard library: `regexp`

A backtracking matcher with Go's leftmost-first semantics (the match a
backtracking search finds first), for the operators the three patterns of the
program use. A position is the text split in two: what lies before it,
nearest character first, and what lies after it. -/

/-- A position in the searched text. -/
structure Pos where
  before : List Char
  after : List Char
deriving DecidableEq, Repr

/-- Capture groups: index and captured text, most recent first. -/
abbrev Caps := List (Nat × Str)

/-- Regular expressions, restricted to the operators that occur in the program. -/
inductive Regex where
  /-- One character of a class. -/
  | one (p : Char → Bool)
  /-- Greedy repetition `p*` of a character class. -/
  | many (p : Char → Bool)
  /-- Concatenation. -/
  | seq (r s : Regex)
  /-- Greedy option `r?`: `r` is tried before the empty match. -/
  | opt (r : Regex)
  /-- Capture group number `i`. -/
  | group (i : Nat) (r : Regex)
  /-- Start of text: `^` without flag `m`. -/
  | bot
  /-- Start of line: `^` under flag `m`. -/
  | bol
  /-- End of text: `$` without flag `m`. -/
  | eot

/-- The text between two positions of the same text, `p` before `q`. -/
def between (p q : Pos) : Str :=
  p.after.take (p.after.length - q.after.length)

/-- Greedy `p*` followed by the continuation `k`: the longest run is tried
first, then shorter ones. -/
def manyRun {R : Type} (p : Char → Bool) (k : Pos → Caps → Option R) :
    List Char → List Char → Caps → Option R
  | b, [], caps => k ⟨b, []⟩ caps
  | b, c :: a, caps =>
    if p c then
      match manyRun p k (c :: b) a caps with
      | some r => some r
      | none => k ⟨b, c :: a⟩ caps
    else k ⟨b, c :: a⟩ caps

/-- Backtracking match of `r` at a position, continuing with `k`. -/
def Regex.run {R : Type} : Regex → (Pos → Caps → Option R) → Pos → Caps → Option R
  | .one p, k, pos, caps =>
    match pos.after with
    | [] => none
    | c :: a => if p c then k ⟨c :: pos.before, a⟩ caps else none
  | .many p, k, pos, caps => manyRun p k pos.before pos.after caps
  | .seq r s, k, pos, caps => r.run (fun q cs => s.run k q cs) pos caps
  | .opt r, k, pos, caps =>
    match r.run k pos caps with
    | some x => some x
    | none => k pos caps
  | .group i r, k, pos, caps =>
    r.run (fun q cs => k q ((i, between pos q) :: cs)) pos caps
  | .bot, k, pos, caps => if pos.before.isEmpty then k pos caps else none
  | .bol, k, pos, caps =>
    match pos.before with
    | [] => k pos caps
    | c :: _ => if c = '\n' then k pos caps else none
  | .eot, k, pos, caps => if pos.after.isEmpty then k pos caps else none

/-- The match of `re` starting exactly at `pos`: its end and its captures. -/
def matchAt (re : Regex) (pos : Pos) : Option (Pos × Caps) :=
  re.run (fun q cs => some (q, cs)) pos []

/-- Leftmost match at or after the position `(b, a)`: start, end, captures. -/
def search (re : Regex) : List Char → List Char → Option (Pos × Pos × Caps)
  | b, [] =>
    match matchAt re ⟨b, []⟩ with
    | some (q, cs) => some (⟨b, []⟩, q, cs)
    | none => none
  | b, c :: a =>
    match matchAt re ⟨b, c :: a⟩ with
    | some (q, cs) => some (⟨b, c :: a⟩, q, cs)
    | none => search re (c :: b) a

/-- Text of group `i`, empty when the group took no part in the match. -/
def groupText (cs : Caps) (i : Nat) : Str :=
  match cs.find? (fun e => e.1 == i) with
  | some e => e.2
  | none => []

/-- The slice Go returns for one match: the whole match, then groups `1..n`. -/
def submatches (n : Nat) (start stop : Pos) (cs : Caps) : List Str :=
  between start stop :: (List.range n).map (fun i => groupText cs (i + 1))

/-- Go `(*Regexp).MatchString`. -/
def MatchString (re : Regex) (s : Str) : Bool :=
  (search re [] s).isSome

/-- Go `(*Regexp).FindStringSubmatch` for a pattern with `n` groups; the nil
slice of "no match" is the empty list. -/
def FindStringSubmatch (re : Regex) (n : Nat) (s : Str) : List Str :=
  match search re [] s with
  | some (start, stop, cs) => submatches n start stop cs
  | none => []

/-- Successive non-overlapping matches from `(b, a)` on; `skip` counts the
characters of the previous match still to step over. None of the patterns of
the program matches the empty string, so Go's rule for empty matches next to a
previous match is not needed. -/
def findAllFrom (re : Regex) (n : Nat) : Nat → List Char → List Char → List (List Str)
  | _, b, [] =>
    match matchAt re ⟨b, []⟩ with
    | some (q, cs) => [submatches n ⟨b, []⟩ q cs]
    | none => []
  | skip + 1, b, c :: a => findAllFrom re n skip (c :: b) a
  | 0, b, c :: a =>
    match matchAt re ⟨b, c :: a⟩ with
    | some (q, cs) =>
      submatches n ⟨b, c :: a⟩ q cs ::
        findAllFrom re n ((c :: a).length - q.after.length - 1) (c :: b) a
    | none => findAllFrom re n 0 (c :: b) a

/-- Go `(*Regexp).FindAllStringSubmatch(s, -1)` for a pattern with `n` groups. -/
def FindAllStringSubmatch (re : Regex) (n : Nat) (s : Str) : List (List Str) :=
  findAllFrom re n 0 [] s

/-! ### Character classes and the three patterns -/

/-- A literal character under flag `i`. The letters of the patterns have no
case variant outside ASCII, so folding is ASCII lower-casing. -/
def foldEq (c : Char) : Char → Bool := fun x => x.toLower == c

/-- A literal character, case-sensitive. -/
def isChar (c : Char) : Char → Bool := fun x => x == c

/-- Class `.` without flag `s`: any character but the line break. -/
def dotNoNL : Char → Bool := fun x => x != '\n'

/-- Class `.` under flag `s`: any character. -/
def dotAll : Char → Bool := fun _ => true

/-- Perl class `\s` of Go: `[\t\n\f\r ]`. -/
def perlSpace : Char → Bool := fun x =>
  x == '\t' || x == '\n' || x == '\x0c' || x == '\r' || x == ' '

/-- Class `[^)]`; a negated class matches the line break too. -/
def notRParen : Char → Bool := fun x => x != ')'

/-- Class `[^<\n]`. -/
def notLtNL : Char → Bool := fun x => x != '<' && x != '\n'

/-- A literal string under flag `i`, followed by `r`. -/
def litFold : List Char → Regex → Regex
  | [], r => r
  | c :: cs, r => .seq (.one (foldEq c)) (litFold cs r)

/-- Pattern of `getFeatCommits`: `(?i)^feat(\(.*\))?:`. -/
def featRe : Regex :=
  .seq .bot (litFold "feat".toList
    (.seq (.opt (.group 1 (.seq (.one (isChar '(')) (.seq (.many dotNoNL) (.one (isChar ')'))))))
      (.one (isChar ':'))))

/-- Pattern of `formatCommitMessage`: `(?is)^feat(?:\(([^)]+)\))?:\s*(.*)$`. -/
def summaryRe : Regex :=
  .seq .bot (litFold "feat".toList
    (.seq (.opt (.seq (.one (isChar '('))
        (.seq (.group 1 (.seq (.one notRParen) (.many notRParen))) (.one (isChar ')')))))
      (.seq (.one (isChar ':'))
        (.seq (.many perlSpace) (.seq (.group 2 (.many dotAll)) .eot)))))

/-- Pattern of `formatCommitMessage`: `(?mi)^co-authored-by:\s*([^<\n]+)`. -/
def coAuthorRe : Regex :=
  .seq .bol (litFold "co-authored-by:".toList
    (.seq (.many perlSpace) (.group 1 (.seq (.one notLtNL) (.many notLtNL)))))

/-! ## Go standard library: `time` -/

/-- Go `time.Time` as what `Format` reads from it: the calendar date and
clock time in the value's own location. -/
structure Time where
  Year : Int
  Month : Nat
  Day : Nat
  Hour : Nat
  Minute : Nat
  Second : Nat
deriving DecidableEq, Repr, Inhabited

/-- Elements of a Go time layout (`std...` constants of package `time`). -/
inductive Chunk where
  | text (c : Char)
  | stdZeroMonth
  | stdZeroDay
  | stdZeroHour12
  | stdZeroMinute
  | stdZeroSecond
  | stdYear
  | stdHour
  | stdNumMonth
  | stdLongYear
  | stdDay
  | stdHour12
  | stdMinute
  | stdSecond
  | stdPM
  | stdpm
deriving DecidableEq, Repr

/-- Go `nextStdChunk`, iterated over a layout, for the elements that begin
with a digit or with `P`/`p` (no other element can begin at a character of the
layout the program uses): `01` month, `02` day, `03` twelve-hour hour, `04`
minute, `05` second, `06` two-digit year, `15` hour, `1` month, `2006` year,
`2` day, `3`, `4`, `5`, `PM`, `pm`. -/
def layoutChunks : List Char → List Chunk
  | '0' :: '1' :: l => .stdZeroMonth :: layoutChunks l
  | '0' :: '2' :: l => .stdZeroDay :: layoutChunks l
  | '0' :: '3' :: l => .stdZeroHour12 :: layoutChunks l
  | '0' :: '4' :: l => .stdZeroMinute :: layoutChunks l
  | '0' :: '5' :: l => .stdZeroSecond :: layoutChunks l
  | '0' :: '6' :: l => .stdYear :: layoutChunks l
  | '1' :: '5' :: l => .stdHour :: layoutChunks l
  | '1' :: l => .stdNumMonth :: layoutChunks l
  | '2' :: '0' :: '0' :: '6' :: l => .stdLongYear :: layoutChunks l
  | '2' :: l => .stdDay :: layoutChunks l
  | '3' :: l => .stdHour12 :: layoutChunks l
  | '4' :: l => .stdMinute :: layoutChunks l
  | '5' :: l => .stdSecond :: layoutChunks l
  | 'P' :: 'M' :: l => .stdPM :: layoutChunks l
  | 'p' :: 'm' :: l => .stdpm :: layoutChunks l
  | c :: l => .text c :: layoutChunks l
  | [] => []

/-- Go `appendInt`: decimal digits, zero-padded to `width`, `-` in front of a
negative number. -/
def appendInt (x : Int) (width : Nat) : Str :=
  let ds := Nat.toDigits 10 x.natAbs
  (if x < 0 then ['-'] else []) ++ List.replicate (width - ds.length) '0' ++ ds

/-- The hour on the twelve-hour clock: `hr := hour % 12; if hr == 0 { hr = 12 }`. -/
def hour12 (hour : Nat) : Nat :=
  if hour % 12 = 0 then 12 else hour % 12

/-- What `Time.Format` appends for one layout element. -/
def formatChunk (t : Time) : Chunk → Str
  | .text c => [c]
  | .stdZeroMonth => appendInt t.Month 2
  | .stdZeroDay => appendInt t.Day 2
  | .stdZeroHour12 => appendInt (hour12 t.Hour) 2
  | .stdZeroMinute => appendInt t.Minute 2
  | .stdZeroSecond => appendInt t.Second 2
  | .stdYear => appendInt (t.Year.natAbs % 100 : Nat) 2
  | .stdHour => appendInt t.Hour 2
  | .stdNumMonth => appendInt t.Month 0
  | .stdLongYear => appendInt t.Year 4
  | .stdDay => appendInt t.Day 0
  | .stdHour12 => appendInt (hour12 t.Hour) 0
  | .stdMinute => appendInt t.Minute 0
  | .stdSecond => appendInt t.Second 0
  | .stdPM => if t.Hour ≥ 12 then "PM".toList else "AM".toList
  | .stdpm => if t.Hour ≥ 12 then "pm".toList else "am".toList

/-- Go `Time.Format`. -/
def Time.Format (t : Time) (layout : Str) : Str :=
  ((layoutChunks layout).map (formatChunk t)).flatten

/-! ## Data model -/

/-- Go `Author`. -/
structure Author where
  Name : Str
  Date : Time
deriving DecidableEq, Repr, Inhabited

/-- Go `Commit`. -/
structure Commit where
  Message : Str
  Author : Author
deriving DecidableEq, Repr, Inhabited

/-- Go `CommitRequest`; the embedded `Commit` is the field `Commit`. -/
structure CommitRequest where
  SHA : Str
  Commit : Commit
  HTMLURL : Str
deriving DecidableEq, Repr, Inhabited

/-- A hexadecimal digit, in either case. -/
def isHexDigit (c : Char) : Bool :=
  let n := c.toNat
  (0x30 ≤ n && n ≤ 0x39) || (0x61 ≤ n && n ≤ 0x66) || (0x41 ≤ n && n ≤ 0x46)

/-- The form of the field `sha` in the answer of the commit-listing endpoint
(`https://api.github.com/repos/.../commits`): a git object name, that is,
hexadecimal digits only. -/
def isGitSHA (sha : Str) : Bool :=
  sha.all isHexDigit

/-! ## Commit Fetcher -/

/-- The loop of `getFeatCommits` over the decoded commits: `feats` grows by
every commit whose message the pattern matches. -/
def featsLoop : List CommitRequest → List CommitRequest → List CommitRequest
  | [], feats => feats
  | c :: commits, feats =>
    if MatchString featRe c.Commit.Message then featsLoop commits (feats ++ [c])
    else featsLoop commits feats

/-- Go `getFeatCommits`. The request, the status check and the JSON decoding
are the environment: `response` is the decoded list of commits, or `none` when
one of them made the function return an error. -/
def getFeatCommits (response : Option (List CommitRequest)) : Option (List CommitRequest) :=
  match response with
  | none => none
  | some commits => some (featsLoop commits [])

/-! ## Commit Formatter -/

/-- The scope and the message `formatCommitMessage` reads off the submatches:
`if len(matches) > 2 { scope = matches[1]; msg = matches[2] } else { msg = Message }`. -/
def scopeAndMsg (message : Str) : Str × Str :=
  let m := FindStringSubmatch summaryRe 2 message
  if m.length > 2 then (m.getD 1 [], m.getD 2 []) else ([], message)

/-- The loop over the co-author submatches: the trimmed first group of each,
blank ones skipped. -/
def namesLoop : List (List Str) → List Str → List Str
  | [], names => names
  | author :: coAuthors, names =>
    let name := TrimSpace (author.getD 1 [])
    if name ≠ [] then namesLoop coAuthors (names ++ [name])
    else namesLoop coAuthors names

/-- The co-author names of a message. -/
def coAuthorNames (message : Str) : List Str :=
  namesLoop (FindAllStringSubmatch coAuthorRe 1 message) []

/-- The loop `for i, name := range names` building `by`; `n` is `len(names)`. -/
def byLoop (n : Nat) : Nat → List Str → Str → Str
  | _, [], b => b
  | i, name :: names, b =>
    if i = n - 1 then byLoop n (i + 1) names (b ++ " and ".toList ++ name)
    else byLoop n (i + 1) names (b ++ ", ".toList ++ name)

/-- The text inside the square brackets of the output: `strings.TrimSpace(msg)`
after the first-line cut and the scope prefix. -/
def linkText (c : CommitRequest) : Str :=
  let (scope, msg) := scopeAndMsg c.Commit.Message
  let msg := (SplitN2 msg).headD []
  let msg := if scope ≠ [] then scope ++ ": ".toList ++ msg else msg
  TrimSpace msg

/-- The value of `by` at the end of `formatCommitMessage`. -/
def byline (c : CommitRequest) : Str :=
  let names := coAuthorNames c.Commit.Message
  byLoop names.length 0 names c.Commit.Author.Name

/-- The layout constant of `formatCommitMessage`. -/
def dateLayout : Str := "02/01/2006, 15:03 PM".toList

/-- The formatted author date. -/
def timestamp (c : CommitRequest) : Str :=
  c.Commit.Author.Date.Format dateLayout

/-- Go `formatCommitMessage`: `"[%s](%s)\nby %s, at %s\n"`. -/
def formatCommitMessage (c : CommitRequest) : Str :=
  "[".toList ++ linkText c ++ "](".toList ++ c.HTMLURL ++ ")\nby ".toList ++ byline c ++
    ", at ".toList ++ timestamp c ++ "\n".toList

/-! ## Dedup Cache

The file `.cache` is `none` when it is absent or unreadable, otherwise its
content. -/

/-- Go `loadCache`. -/
def loadCache (file : Option Str) : Str :=
  match file with
  | none => []
  | some data => TrimSpace data

/-- Go `saveCache`. `os.WriteFile` replaces the content; its error is
discarded, and a write that fails (`ok = false`) is taken to leave the file as
it was. -/
def saveCache (sha : Str) (ok : Bool) (file : Option Str) : Option Str :=
  if ok then some sha else file

/-! ## Notifier Loop -/

/-- What the outside world does during one tick. -/
structure Env where
  /-- The commits decoded from the listing endpoint, `none` on any error. -/
  response : Option (List CommitRequest)
  /-- Whether `ChannelMessageSend` returns without error. -/
  sendOk : Bool
  /-- Whether `os.WriteFile` succeeds. -/
  writeOk : Bool
deriving DecidableEq, Repr

/-- What one call of `sendNewCommits` did. -/
structure Outcome where
  /-- The file `.cache` afterwards. -/
  file : Option Str
  /-- The list `newCommits`, empty when the tick returned before building it. -/
  batch : List CommitRequest
  /-- Every call of `ChannelMessageSend`, in order: channel and text. -/
  sends : List (Str × Str)
  /-- Whether a call of `ChannelMessageSend` returned without error. -/
  delivered : Bool
  /-- Every call of `saveCache`, in order: its argument. -/
  saves : List Str
  /-- Whether `sendNewCommits` returned an error. -/
  err : Bool
deriving DecidableEq, Repr

/-- The loop building `newCommits`: it breaks at the first commit whose SHA is
`lastSent`. -/
def newCommitsLoop (lastSent : Str) : List CommitRequest → List CommitRequest → List CommitRequest
  | [], newCommits => newCommits
  | c :: feats, newCommits =>
    if c.SHA = lastSent then newCommits
    else newCommitsLoop lastSent feats (newCommits ++ [c])

/-- The first line of every notification. -/
def header : Str := "there are new features in plum priestess!\n\n".toList

/-- The loop `for i := len(newCommits) - 1; i >= 0; i--`, entered with
`n = i + 1`; the index is always in range. -/
def msgLoop (newCommits : List CommitRequest) : Nat → Str → Str
  | 0, msg => msg
  | i + 1, msg =>
    match newCommits[i]? with
    | some c => msgLoop newCommits i (msg ++ formatCommitMessage c ++ "\n".toList)
    | none => msgLoop newCommits i msg

/-- Go `sendNewCommits`, from the file `.cache` before the tick. -/
def sendNewCommits (channelID : Str) (env : Env) (file : Option Str) : Outcome :=
  match getFeatCommits env.response with
  | none => ⟨file, [], [], false, [], true⟩
  | some [] => ⟨file, [], [], false, [], false⟩
  | some (c0 :: rest) =>
    let feats := c0 :: rest
    let lastSent := loadCache file
    let newCommits := newCommitsLoop lastSent feats []
    if newCommits.length = 0 then ⟨file, newCommits, [], false, [], false⟩
    else
      let msg := msgLoop newCommits newCommits.length header
      if env.sendOk then
        ⟨saveCache c0.SHA env.writeOk file, newCommits, [(channelID, msg)], true, [c0.SHA], false⟩
      else ⟨file, newCommits, [(channelID, msg)], false, [], true⟩

/-- The state of the process between ticks: the file `.cache` and, for the
statement of the marker invariant, the last batch whose send succeeded. -/
structure Run where
  file : Option Str
  lastBatch : Option (List CommitRequest)
deriving DecidableEq, Repr

/-- A finite run of the loop of `main`, one `Env` per tick; an error of a
tick is printed and the loop goes on. -/
def runTicks (channelID : Str) : List Env → Run → Run
  | [], s => s
  | env :: envs, s =>
    let o := sendNewCommits channelID env s.file
    runTicks channelID envs ⟨o.file, if o.delivered then some o.batch else s.lastBatch⟩

/-! ## The words of the specification -/

/-- The words of the specification for a feat commit: the message starts with
`feat` in any letter case, optionally followed by a parenthesized scope, then a
colon. A scope is any text without a line break, possibly empty. -/
def StartsWithFeatMarker (m : Str) : Prop :=
  ∃ f rest : Str, f.map Char.toLower = "feat".toList ∧
    (m = f ++ ':' :: rest ∨
      ∃ scope : Str, '\n' ∉ scope ∧ m = f ++ '(' :: (scope ++ ')' :: ':' :: rest))

/-! ## Co-author trailers and the join of the byline, in the words of the specification -/

/-- A co-author trailer line `<marker> <name> <<mail>>`. -/
structure Trailer where
  marker : Str
  name : Str
  mail : Str
deriving DecidableEq, Repr

/-- The text of a trailer line. -/
def Trailer.line (t : Trailer) : Str :=
  t.marker ++ ' ' :: (t.name ++ ' ' :: '<' :: (t.mail ++ ['>']))

/-- A trailer in the usual form: the marker is `co-authored-by:` in any letter
case, the name is non-empty, has no white space at either end and no `<` or line
break in it, and the mail address has no line break in it. -/
abbrev Trailer.WellFormed (t : Trailer) : Prop :=
  t.marker.map Char.toLower = "co-authored-by:".toList ∧ t.name ≠ [] ∧
    TrimSpace t.name = t.name ∧ (∀ x ∈ t.name, notLtNL x = true) ∧ '\n' ∉ t.mail

/-- A block of trailer lines, each on a line of its own. -/
def trailerBlock (ts : List Trailer) : Str :=
  (ts.map (fun t => '\n' :: t.line)).flatten

/-- The words of the specification for the byline after the author name: the
co-author names joined with `, `, the last one with ` and `. -/
def joinNames : List Str → Str
  | [] => []
  | [name] => " and ".toList ++ name
  | name :: names => ", ".toList ++ name ++ joinNames names

/-! ## Example commits -/

/-- An author date: 5 March 2024, 14:37:09. -/
def exDate : Time := ⟨2024, 3, 5, 14, 37, 9⟩

/-- A commit by "Al" with the given SHA and message. -/
def exCommit (sha message : String) : CommitRequest :=
  ⟨sha.toList, ⟨message.toList, ⟨"Al".toList, exDate⟩⟩, ("https://x/".toList ++ sha.toList)⟩

/-- The oldest of three feat commits. -/
def commitC1 : CommitRequest := exCommit "c1" "feat: one"

/-- The middle one of three feat commits. -/
def commitC2 : CommitRequest := exCommit "c2" "feat(ui): two"

/-- The newest of three feat commits. -/
def commitC3 : CommitRequest := exCommit "c3" "Feat(api): three"

/-- A tick in which the listing returns `[C3, C2, C1]` and nothing fails. -/
def envC321 : Env := ⟨some [commitC3, commitC2, commitC1], true, true⟩

/-- A feat commit whose `Co-authored-by:` line names nobody and is followed by
another trailer. -/
def commitBlankCoAuthor : CommitRequest :=
  exCommit "c7" "feat(api): add foo\n\nCo-authored-by:\nSigned-off-by: Bob <bob@x.io>"

/-- A commit the fetcher keeps and the pattern of the formatter does not match:
its scope is empty. -/
def commitEmptyScope : CommitRequest :=
  exCommit "c10" "feat(): drop bar\n\nCo-authored-by: Bob <bob@x.io>"

/-- The message of the formatter example of the specification. -/
def commitSpec : CommitRequest :=
  exCommit "c0" "feat(api): add foo\n\nco-authored-by: Jane Doe <j@x.com>"

/-- A commit the fetcher keeps and the pattern of the formatter does not match:
a closing parenthesis stands inside its scope. -/
def commitTwoScopes : CommitRequest := exCommit "c8" "feat(ui)(web): add foo"

/-- A feat commit with a line break right after the colon. -/
def commitBreakAfterColon : CommitRequest := exCommit "c8b" "feat(api):\nadd foo\n\nbody"

/-- A listing with feat commits and others. -/
def mixedListing : List CommitRequest :=
  [exCommit "a" "feat: x", exCommit "b" "fix: y", exCommit "c" "FEAT(ui): z",
    exCommit "d" "feature: w", exCommit "e" "feat(a\nb): v", exCommit "f" "Feat(): u"]

/-- A commit the pattern of the formatter does not match, with two co-author
trailers. -/
def commitTwoCoAuthors : CommitRequest :=
  exCommit "c11"
    "feat(): drop bar\n\nCo-authored-by: Bob <bob@x.io>\nco-authored-by: Jane Doe <j@x.com>"

/-- A tick in which the listing returns `[C1]` and nothing fails. -/
def envC1 : Env := ⟨some [commitC1], true, true⟩

/-- A tick in which the listing returns `[C2, C1]`, the send succeeds and the
write of `.cache` fails. -/
def envC21WriteFails : Env := ⟨some [commitC2, commitC1], true, false⟩

/-! ## Lemmas on the loops and the tick -/

theorem featsLoop_eq (commits feats : List CommitRequest) :
    featsLoop commits feats
      = feats ++ commits.filter (fun c => MatchString featRe c.Commit.Message) := by
  induction commits generalizing feats with
  | nil => simp [featsLoop]
  | cons c cs ih =>
    by_cases h : MatchString featRe c.Commit.Message = true
    · simp [featsLoop, h, ih]
    · simp [featsLoop, h, ih]

theorem newCommitsLoop_eq (lastSent : Str) (feats acc : List CommitRequest) :
    newCommitsLoop lastSent feats acc
      = acc ++ feats.takeWhile (fun c => decide (c.SHA ≠ lastSent)) := by
  induction feats generalizing acc with
  | nil => simp [newCommitsLoop]
  | cons c cs ih =>
    by_cases h : c.SHA = lastSent
    · simp [newCommitsLoop, h]
    · simp [newCommitsLoop, h, ih]

theorem msgLoop_eq (newCommits : List CommitRequest) (n : Nat) (msg : Str)
    (hn : n ≤ newCommits.length) :
    msgLoop newCommits n msg
      = msg ++ (((newCommits.take n).reverse.map
          (fun c => formatCommitMessage c ++ "\n".toList)).flatten) := by
  induction n generalizing msg with
  | zero => simp [msgLoop]
  | succ i ih =>
    have hi : i < newCommits.length := hn
    have hget : newCommits[i]? = some newCommits[i] := List.getElem?_eq_getElem hi
    have htake : newCommits.take (i + 1) = newCommits.take i ++ [newCommits[i]] := by
      rw [List.take_succ, hget]; rfl
    rw [msgLoop, hget]
    simp only []
    rw [ih _ (Nat.le_of_lt hi), htake, List.reverse_append, List.map_append,
      List.flatten_append]
    simp [List.append_assoc]

theorem takeWhile_longest {α : Type} (q : α → Bool) :
    ∀ (l p : List α), p <+: l → (∀ x ∈ p, q x = true) → p <+: l.takeWhile q
  | _, [], _, _ => List.nil_prefix
  | [], x :: p, h, _ => by simp at h
  | y :: l, x :: p, h, hq => by
    obtain ⟨rfl, hp⟩ := List.cons_prefix_cons.mp h
    have hx : q x = true := hq x (List.mem_cons_self _ _)
    rw [List.takeWhile_cons_of_pos hx]
    exact List.cons_prefix_cons.mpr
      ⟨rfl, takeWhile_longest q l p hp (fun z hz => hq z (List.mem_cons_of_mem _ hz))⟩

theorem next_after_takeWhile {α : Type} (q : α → Bool) :
    ∀ (l : List α) (x : α) (rest : List α), l = l.takeWhile q ++ x :: rest → q x = false
  | [], x, rest, h => by simp at h
  | y :: l, x, rest, h => by
    by_cases hy : q y = true
    · rw [List.takeWhile_cons_of_pos hy, List.cons_append] at h
      exact next_after_takeWhile q l x rest (List.cons.inj h).2
    · rw [List.takeWhile_cons_of_neg hy, List.nil_append] at h
      obtain ⟨rfl, _⟩ := List.cons.inj h
      simpa using hy

theorem sendNewCommits_batch (channelID : Str) (env : Env) (file : Option Str)
    (commits : List CommitRequest) (hresp : env.response = some commits) :
    (sendNewCommits channelID env file).batch
      = newCommitsLoop (loadCache file) (featsLoop commits []) [] := by
  unfold sendNewCommits
  rw [hresp]
  simp only [getFeatCommits]
  cases hf : featsLoop commits [] with
  | nil => simp [newCommitsLoop]
  | cons c0 rest =>
    simp only []
    split_ifs <;> simp_all

theorem newCommitsLoop_eq_self (lastSent : Str) (feats : List CommitRequest)
    (hall : ∀ c ∈ feats, c.SHA ≠ lastSent) : newCommitsLoop lastSent feats [] = feats := by
  rw [newCommitsLoop_eq, List.nil_append]
  exact List.takeWhile_eq_self_iff.mpr (fun x hx => by simpa using hall x hx)

/-- What a tick does when its send succeeds: `newCommits` starts with `feats[0]`,
whose SHA is the one argument of `saveCache`. -/
theorem delivered_tick (channelID : Str) (env : Env) (file : Option Str)
    (h : (sendNewCommits channelID env file).delivered = true) :
    ∃ c rest feats, (sendNewCommits channelID env file).batch = c :: rest ∧
      getFeatCommits env.response = some (c :: feats) ∧
      (sendNewCommits channelID env file).saves = [c.SHA] ∧
      (sendNewCommits channelID env file).file = saveCache c.SHA env.writeOk file := by
  unfold sendNewCommits at h ⊢
  cases hf : getFeatCommits env.response with
  | none => simp [hf] at h
  | some feats =>
    cases feats with
    | nil => simp [hf] at h
    | cons c0 rest =>
      simp only [hf] at h
      simp only []
      by_cases hc : c0.SHA = loadCache file
      · simp [newCommitsLoop, hc] at h
      · by_cases hs : env.sendOk = true
        · refine ⟨c0, rest.takeWhile (fun c => decide (c.SHA ≠ loadCache file)), rest, ?_⟩
          simp [newCommitsLoop_eq, hc, hs]
        · simp [newCommitsLoop_eq, hc, hs] at h

/-- A tick whose send does not succeed calls `saveCache` not at all. -/
theorem undelivered_tick (channelID : Str) (env : Env) (file : Option Str)
    (h : (sendNewCommits channelID env file).delivered = false) :
    (sendNewCommits channelID env file).saves = [] ∧
      (sendNewCommits channelID env file).file = file := by
  unfold sendNewCommits at h ⊢
  cases hf : getFeatCommits env.response with
  | none => simp
  | some feats =>
    cases feats with
    | nil => simp
    | cons c0 rest =>
      simp only [hf] at h
      simp only []
      split_ifs at h ⊢ <;> simp_all

/-- The marker invariant along a run whose writes all succeed: once a send has
succeeded, `.cache` holds the SHA of the first commit of the last batch sent. -/
theorem runTicks_file (channelID : Str) (envs : List Env) (s : Run)
    (hw : ∀ e ∈ envs, e.writeOk = true)
    (hs : ∀ b, s.lastBatch = some b → ∃ c rest, b = c :: rest ∧ s.file = some c.SHA) :
    ∀ b, (runTicks channelID envs s).lastBatch = some b →
      ∃ c rest, b = c :: rest ∧ (runTicks channelID envs s).file = some c.SHA := by
  induction envs generalizing s with
  | nil => exact hs
  | cons env envs ih =>
    rw [runTicks]
    apply ih _ (fun e he => hw e (List.mem_cons_of_mem _ he))
    intro b hb'
    by_cases hd : (sendNewCommits channelID env s.file).delivered = true
    · obtain ⟨c, rest, feats, hb, _, hsv, hfl⟩ := delivered_tick channelID env s.file hd
      simp only [hd, if_true, Option.some.injEq] at hb'
      have hwe : env.writeOk = true := hw env (List.mem_cons_self _ _)
      exact ⟨c, rest, by rw [← hb', hb], by simp [hfl, saveCache, hwe]⟩
    · have hd' : (sendNewCommits channelID env s.file).delivered = false := by
        simpa using hd
      obtain ⟨hsv, hfl⟩ := undelivered_tick channelID env s.file hd'
      simp only [hd', Bool.false_eq_true, if_false] at hb'
      simpa [hfl] using hs b hb'

theorem isHexDigit_not_isSpace (c : Char) (h : isHexDigit c = true) : isSpace c = false := by
  simp only [isHexDigit, Bool.or_eq_true, Bool.and_eq_true, decide_eq_true_eq] at h
  simp only [isSpace]
  have hn : c.toNat ≤ 0xFF := by omega
  simp only [hn, if_true]
  simp only [Bool.or_eq_false_iff, beq_eq_false_iff_ne, ne_eq]
  omega

theorem dropWhile_eq_self_of_all_false {α : Type} (p : α → Bool) (l : List α)
    (h : ∀ x ∈ l, p x = false) : l.dropWhile p = l := by
  cases l with
  | nil => rfl
  | cons x l => simp [List.dropWhile_cons, h x (List.mem_cons_self _ _)]

theorem TrimSpace_gitSHA (sha : Str) (h : isGitSHA sha = true) : TrimSpace sha = sha := by
  have hall : ∀ c ∈ sha, isSpace c = false := fun c hc =>
    isHexDigit_not_isSpace c (List.all_eq_true.mp h c hc)
  unfold TrimSpace
  rw [dropWhile_eq_self_of_all_false isSpace sha hall,
    dropWhile_eq_self_of_all_false isSpace sha.reverse
      (fun c hc => hall c (List.mem_reverse.mp hc)), List.reverse_reverse]

/-- The second of two ticks over the same listing sends nothing, provided the
first could deliver and write and the SHA of the newest feat commit is
unchanged by `TrimSpace`. -/
theorem second_tick_silent (channelID : Str) (file : Option Str)
    (commits : List CommitRequest) (e1 e2 : Env)
    (h1 : e1.response = some commits) (h2 : e2.response = some commits)
    (hs : e1.sendOk = true) (hw : e1.writeOk = true)
    (htrim : ∀ c tail, featsLoop commits [] = c :: tail → TrimSpace c.SHA = c.SHA) :
    (sendNewCommits channelID e2 (sendNewCommits channelID e1 file).file).sends = [] := by
  cases hf : featsLoop commits [] with
  | nil => simp [sendNewCommits, getFeatCommits, h1, h2, hf]
  | cons c0 rest =>
    have ht := htrim c0 rest hf
    by_cases hc : c0.SHA = loadCache file
    · have e : (sendNewCommits channelID e1 file).file = file := by
        simp [sendNewCommits, getFeatCommits, h1, hf, newCommitsLoop, hc]
      rw [e]
      simp [sendNewCommits, getFeatCommits, h2, hf, newCommitsLoop, hc]
    · have e : (sendNewCommits channelID e1 file).file = some c0.SHA := by
        simp [sendNewCommits, getFeatCommits, h1, hf, newCommitsLoop_eq, hc, hs, hw,
          saveCache]
      rw [e]
      simp [sendNewCommits, getFeatCommits, h2, hf, newCommitsLoop, loadCache, ht]

theorem SplitN2_head (s : Str) : (SplitN2 s).headD [] = s.takeWhile (fun c => c != '\n') := by
  induction s with
  | nil => rfl
  | cons c s ih =>
    by_cases hc : c = '\n'
    · simp [SplitN2, hc]
    · rw [SplitN2, if_neg hc]
      cases hs : SplitN2 s with
      | nil => rw [hs] at ih; simp [hc] at ih ⊢; exact ih
      | cons x xs => rw [hs] at ih; simp [hc] at ih ⊢; exact ih

theorem byLoop_nil (n i : Nat) (b : Str) : byLoop n i [] b = b := by
  cases i <;> rfl

theorem manyRun_isSome {R : Type} (p : Char → Bool) (k : Pos → Caps → Option R)
    (a b : List Char) (caps : Caps) :
    (manyRun p k b a caps).isSome = true ↔
      ∃ x y, a = x ++ y ∧ (∀ c ∈ x, p c = true) ∧
        (k ⟨x.reverse ++ b, y⟩ caps).isSome = true := by
  induction a generalizing b with
  | nil =>
    constructor
    · intro h
      exact ⟨[], [], rfl, by simp, by simpa [manyRun] using h⟩
    · rintro ⟨x, y, hxy, _, hk⟩
      obtain ⟨rfl, rfl⟩ := List.append_eq_nil.mp hxy.symm
      simpa [manyRun] using hk
  | cons c a ih =>
    rw [manyRun]
    by_cases hc : p c = true
    · rw [if_pos hc]
      constructor
      · intro h
        cases hm : manyRun p k (c :: b) a caps with
        | some r =>
          obtain ⟨x, y, hxy, hx, hk⟩ := (ih (c :: b)).mp (by rw [hm]; rfl)
          refine ⟨c :: x, y, by rw [hxy]; rfl, ?_, ?_⟩
          · intro d hd
            rcases List.mem_cons.mp hd with rfl | hd
            · exact hc
            · exact hx d hd
          · simpa using hk
        | none =>
          rw [hm] at h
          exact ⟨[], c :: a, rfl, by simp, by simpa using h⟩
      · rintro ⟨x, y, hxy, hx, hk⟩
        cases x with
        | nil =>
          simp only [List.nil_append] at hxy
          subst hxy
          cases hm : manyRun p k (c :: b) a caps with
          | some r => rfl
          | none => simpa using hk
        | cons d x =>
          obtain ⟨rfl, rfl⟩ := List.cons.inj hxy
          have : (manyRun p k (c :: b) (x ++ y) caps).isSome = true :=
            (ih (c :: b)).mpr ⟨x, y, rfl, fun e he => hx e (List.mem_cons_of_mem _ he),
              by simpa using hk⟩
          cases hm : manyRun p k (c :: b) (x ++ y) caps with
          | some r => rfl
          | none => rw [hm] at this; simp at this
    · rw [if_neg hc]
      constructor
      · intro h
        exact ⟨[], c :: a, rfl, by simp, by simpa using h⟩
      · rintro ⟨x, y, hxy, hx, hk⟩
        cases x with
        | nil =>
          simp only [List.nil_append] at hxy
          subst hxy
          simpa using hk
        | cons d x =>
          obtain ⟨rfl, rfl⟩ := List.cons.inj hxy
          exact absurd (hx c (List.mem_cons_self _ _)) hc

theorem manyRun_greedy {R : Type} (p : Char → Bool) (k : Pos → Caps → Option R)
    (x y b : List Char) (caps : Caps) (r : R) (hx : ∀ c ∈ x, p c = true)
    (hy : ∀ c ∈ y.head?, p c = false) (hk : k ⟨x.reverse ++ b, y⟩ caps = some r) :
    manyRun p k b (x ++ y) caps = some r := by
  induction x generalizing b with
  | nil =>
    cases y with
    | nil => simpa [manyRun] using hk
    | cons c y =>
      have hc : p c = false := hy c (by simp)
      simpa [manyRun, hc] using hk
  | cons c x ih =>
    have hc : p c = true := hx c (List.mem_cons_self _ _)
    have h := ih (c :: b) (fun d hd => hx d (List.mem_cons_of_mem _ hd)) (by simpa using hk)
    simp [manyRun, hc, h]

theorem head_dropWhile {p : Char → Bool} (l : List Char) :
    ∀ c ∈ (l.dropWhile p).head?, p c = false := by
  intro c hc
  have := List.head?_dropWhile_not p l
  rw [Option.mem_def.mp hc] at this
  simpa using this

theorem take_length_sub (x y : List Char) : (x ++ y).take ((x ++ y).length - y.length) = x := by
  simp

theorem summaryTail_run (b rest : List Char) (caps : Caps) :
    (Regex.seq (.one (isChar ':'))
        (.seq (.many perlSpace) (.seq (.group 2 (.many dotAll)) .eot))).run
      (fun q cs => some (q, cs)) ⟨b, ':' :: rest⟩ caps
    = some (⟨(rest.dropWhile perlSpace).reverse ++
          ((rest.takeWhile perlSpace).reverse ++ ':' :: b), []⟩,
        (2, rest.dropWhile perlSpace) :: caps) := by
  simp only [Regex.run, isChar, beq_self_eq_true, if_true]
  conv_lhs => rw [← List.takeWhile_append_dropWhile perlSpace rest]
  apply manyRun_greedy
  · intro c hc
    exact List.mem_takeWhile_imp hc
  · exact head_dropWhile rest
  · simp only []
    have h := manyRun_greedy dotAll
      (fun q cs => if q.after.isEmpty = true then
        some (q, (2, between ⟨(rest.takeWhile perlSpace).reverse ++ ':' :: b,
          rest.dropWhile perlSpace⟩ q) :: cs) else none)
      (rest.dropWhile perlSpace) [] ((rest.takeWhile perlSpace).reverse ++ ':' :: b) caps
      (⟨(rest.dropWhile perlSpace).reverse ++
          ((rest.takeWhile perlSpace).reverse ++ ':' :: b), []⟩,
        (2, rest.dropWhile perlSpace) :: caps)
      (fun _ _ => rfl) (by simp) (by simp [between])
    simpa using h

theorem feat_letters (f : List Char) (hf : f.map Char.toLower = "feat".toList) :
    ∃ c1 c2 c3 c4, f = [c1, c2, c3, c4] ∧ foldEq 'f' c1 = true ∧ foldEq 'e' c2 = true ∧
      foldEq 'a' c3 = true ∧ foldEq 't' c4 = true := by
  have h4 : "feat".toList = ['f', 'e', 'a', 't'] := rfl
  rw [h4] at hf
  rcases f with _ | ⟨c1, _ | ⟨c2, _ | ⟨c3, _ | ⟨c4, _ | ⟨c5, f⟩⟩⟩⟩⟩ <;>
    simp only [List.map_cons, List.map_nil, List.cons.injEq, and_true, reduceCtorEq,
      and_false] at hf
  obtain ⟨h1, h2, h3, h4⟩ := hf
  exact ⟨c1, c2, c3, c4, rfl, by simp [foldEq, h1], by simp [foldEq, h2],
    by simp [foldEq, h3], by simp [foldEq, h4]⟩

theorem summaryRe_matchAt_unscoped (c1 c2 c3 c4 : Char) (rest : List Char)
    (h1 : foldEq 'f' c1 = true) (h2 : foldEq 'e' c2 = true) (h3 : foldEq 'a' c3 = true)
    (h4 : foldEq 't' c4 = true) :
    matchAt summaryRe ⟨[], c1 :: c2 :: c3 :: c4 :: ':' :: rest⟩
      = some (⟨(rest.dropWhile perlSpace).reverse ++
          ((rest.takeWhile perlSpace).reverse ++ [':', c4, c3, c2, c1]), []⟩,
          [(2, rest.dropWhile perlSpace)]) := by
  have hT := summaryTail_run [c4, c3, c2, c1] rest []
  unfold matchAt summaryRe
  simp only [show "feat".toList = ['f', 'e', 'a', 't'] from rfl, litFold]
  simp only [Regex.run] at hT ⊢
  simp only [List.isEmpty_nil, if_true, h1, h2, h3, h4]
  rw [show isChar '(' ':' = false from rfl]
  simp only [Bool.false_eq_true, if_false]
  exact hT

theorem summaryRe_matchAt_scoped (c1 c2 c3 c4 s0 : Char) (scope rest : List Char)
    (h1 : foldEq 'f' c1 = true) (h2 : foldEq 'e' c2 = true) (h3 : foldEq 'a' c3 = true)
    (h4 : foldEq 't' c4 = true) (hs : ∀ c ∈ s0 :: scope, c ≠ ')') :
    matchAt summaryRe
        ⟨[], c1 :: c2 :: c3 :: c4 :: '(' :: s0 :: (scope ++ ')' :: ':' :: rest)⟩
      = some (⟨(rest.dropWhile perlSpace).reverse ++
          ((rest.takeWhile perlSpace).reverse ++
            (':' :: ')' :: (scope.reverse ++ [s0, '(', c4, c3, c2, c1]))), []⟩,
          [(2, rest.dropWhile perlSpace), (1, s0 :: scope)]) := by
  have hT := summaryTail_run (')' :: (scope.reverse ++ [s0, '(', c4, c3, c2, c1])) rest
    [(1, s0 :: scope)]
  have hs0 : notRParen s0 = true := by
    simpa [notRParen] using hs s0 (List.mem_cons_self _ _)
  have hsc : ∀ c ∈ scope, notRParen c = true := fun c hc => by
    simpa [notRParen] using hs c (List.mem_cons_of_mem _ hc)
  unfold matchAt summaryRe
  simp only [show "feat".toList = ['f', 'e', 'a', 't'] from rfl, litFold]
  simp only [Regex.run] at hT ⊢
  simp only [List.isEmpty_nil, if_true, h1, h2, h3, h4, hs0]
  rw [show isChar '(' '(' = true from rfl]
  rw [show isChar ':' ':' = true from rfl] at hT
  simp only [if_true] at hT ⊢
  rw [manyRun_greedy notRParen _ scope (')' :: ':' :: rest) _ _ _ hsc
    (by simp [notRParen]) ?_]
  simp only []
  rw [show isChar ')' ')' = true from rfl, show isChar ':' ':' = true from rfl]
  simp only [if_true]
  have hb : between ⟨['(', c4, c3, c2, c1], s0 :: (scope ++ ')' :: ':' :: rest)⟩
      ⟨scope.reverse ++ [s0, '(', c4, c3, c2, c1], ')' :: ':' :: rest⟩ = s0 :: scope := by
    have := take_length_sub (s0 :: scope) (')' :: ':' :: rest)
    simpa [between] using this
  rw [hb]
  exact hT

theorem search_bot (r : Regex) (a b : List Char) (hb : b ≠ []) :
    search (.seq .bot r) b a = none := by
  have hm : ∀ a', matchAt (.seq .bot r) ⟨b, a'⟩ = none := by
    intro a'
    cases b with
    | nil => exact absurd rfl hb
    | cons c b => simp [matchAt, Regex.run]
  induction a generalizing b with
  | nil => simp [search, hm]
  | cons c a ih =>
    rw [search, hm]
    exact ih (c :: b) (by simp) (fun a' => by simp [matchAt, Regex.run])

theorem search_bot_start (r : Regex) (m : List Char) :
    search (.seq .bot r) [] m
      = (matchAt (.seq .bot r) ⟨[], m⟩).map (fun e => (⟨[], m⟩, e.1, e.2)) := by
  cases m with
  | nil =>
    rw [search]
    cases matchAt (.seq .bot r) ⟨[], []⟩ <;> rfl
  | cons c a =>
    rw [search]
    cases h : matchAt (.seq .bot r) ⟨[], c :: a⟩ with
    | none => simp [search_bot r a [c] (by simp)]
    | some e => rfl

theorem FindStringSubmatch_summaryRe (m : List Char) (bf : List Char) (cs : Caps)
    (h : matchAt summaryRe ⟨[], m⟩ = some (⟨bf, []⟩, cs)) :
    FindStringSubmatch summaryRe 2 m = [m, groupText cs 1, groupText cs 2] := by
  unfold FindStringSubmatch
  have hs := search_bot_start
    (litFold "feat".toList
      (.seq (.opt (.seq (.one (isChar '('))
          (.seq (.group 1 (.seq (.one notRParen) (.many notRParen))) (.one (isChar ')')))))
        (.seq (.one (isChar ':'))
          (.seq (.many perlSpace) (.seq (.group 2 (.many dotAll)) .eot))))) m
  change search summaryRe [] m = _ at hs
  rw [hs]
  change matchAt summaryRe ⟨[], m⟩ = _ at h
  rw [show matchAt (Regex.bot.seq _) ⟨[], m⟩ = matchAt summaryRe ⟨[], m⟩ from rfl, h]
  simp [submatches, between, List.range, List.range.loop]

theorem scopeAndMsg_unscoped (f rest : List Char) (hf : f.map Char.toLower = "feat".toList) :
    scopeAndMsg (f ++ ':' :: rest) = ([], rest.dropWhile perlSpace) := by
  obtain ⟨c1, c2, c3, c4, rfl, h1, h2, h3, h4⟩ := feat_letters f hf
  have h := FindStringSubmatch_summaryRe _ _ _
    (summaryRe_matchAt_unscoped c1 c2 c3 c4 rest h1 h2 h3 h4)
  simp only [List.cons_append, List.nil_append] at h ⊢
  simp [scopeAndMsg, h, groupText]

theorem scopeAndMsg_scoped (f scope rest : List Char)
    (hf : f.map Char.toLower = "feat".toList) (hne : scope ≠ []) (hp : ')' ∉ scope) :
    scopeAndMsg (f ++ '(' :: (scope ++ ')' :: ':' :: rest))
      = (scope, rest.dropWhile perlSpace) := by
  obtain ⟨c1, c2, c3, c4, rfl, h1, h2, h3, h4⟩ := feat_letters f hf
  cases scope with
  | nil => exact absurd rfl hne
  | cons s0 scope =>
    have h := FindStringSubmatch_summaryRe _ _ _
      (summaryRe_matchAt_scoped c1 c2 c3 c4 s0 scope rest h1 h2 h3 h4
        (fun c hc e => hp (e ▸ hc)))
    simp only [List.cons_append, List.nil_append] at h ⊢
    simp [scopeAndMsg, h, groupText]

theorem dropWhile_takeWhile_line (p : Char → Bool) (l : List Char)
    (h : '\n' ∉ l.takeWhile p) :
    (l.dropWhile p).takeWhile (fun c => c != '\n')
      = (l.takeWhile (fun c => c != '\n')).dropWhile p := by
  induction l with
  | nil => rfl
  | cons c l ih =>
    by_cases hc : p c = true
    · rw [List.takeWhile_cons_of_pos hc] at h
      have hne : c ≠ '\n' := fun e => h (e ▸ List.mem_cons_self _ _)
      have ih' := ih (fun hm => h (List.mem_cons_of_mem _ hm))
      simp [List.dropWhile_cons, List.takeWhile_cons, hc, hne, ih']
    · by_cases hne : c = '\n'
      · subst hne
        simp [List.dropWhile_cons, List.takeWhile_cons, hc]
      · simp [List.dropWhile_cons, List.takeWhile_cons, hc, hne]

theorem perlSpace_isSpace (c : Char) (h : perlSpace c = true) : isSpace c = true := by
  simp only [perlSpace, Bool.or_eq_true, beq_iff_eq] at h
  rcases h with (((rfl | rfl) | rfl) | rfl) | rfl <;> decide

theorem dropWhile_isSpace_perlSpace (l : List Char) :
    (l.dropWhile perlSpace).dropWhile isSpace = l.dropWhile isSpace := by
  induction l with
  | nil => rfl
  | cons c l ih =>
    by_cases hc : perlSpace c = true
    · simp [List.dropWhile_cons, hc, perlSpace_isSpace c hc, ih]
    · simp [List.dropWhile_cons, hc]

theorem TrimSpace_dropWhile_perlSpace (l : List Char) :
    TrimSpace (l.dropWhile perlSpace) = TrimSpace l := by
  simp [TrimSpace, dropWhile_isSpace_perlSpace]

theorem foldEq_ne_newline (c d : Char) (h : foldEq d c = true) (hd : d ≠ '\n') : c ≠ '\n' := by
  rintro rfl
  simp only [foldEq, beq_iff_eq] at h
  exact hd (h.symm.trans (by decide))

theorem orElse_isSome {α : Type} (o d : Option α) :
    (match o with
      | some x => some x
      | none => d).isSome = (o.isSome || d.isSome) := by
  cases o <;> simp

theorem closeColon_isSome {R : Type} (y : List Char)
    (g : Char → List Char → Char → List Char → R) :
    (match y with
      | [] => none
      | c5 :: a2 =>
        if isChar ')' c5 = true then
          match a2 with
          | [] => none
          | c6 :: a3 => if isChar ':' c6 = true then some (g c5 a2 c6 a3) else none
        else none).isSome = true ↔ ∃ rest, y = ')' :: ':' :: rest := by
  rcases y with _ | ⟨c5, _ | ⟨c6, a3⟩⟩
  · simp
  · by_cases h5 : isChar ')' c5 = true <;> simp [h5]
  · by_cases h5 : isChar ')' c5 = true
    · by_cases h6 : isChar ':' c6 = true
      · have e5 : c5 = ')' := by simpa [isChar] using h5
        have e6 : c6 = ':' := by simpa [isChar] using h6
        subst e5 e6
        simp [isChar]
      · have e6 : c6 ≠ ':' := by simpa [isChar] using h6
        simp [h5, h6, e6]
    · have e5 : c5 ≠ ')' := by simpa [isChar] using h5
      simp [h5, e5]

theorem featTail_isSome (b a : List Char) (caps : Caps) :
    ((Regex.seq (.opt (.group 1 (.seq (.one (isChar '('))
          (.seq (.many dotNoNL) (.one (isChar ')'))))))
        (.one (isChar ':'))).run (fun q cs => some (q, cs)) ⟨b, a⟩ caps).isSome = true ↔
      ((∃ rest, a = ':' :: rest) ∨
        ∃ scope rest, '\n' ∉ scope ∧ a = '(' :: (scope ++ ')' :: ':' :: rest)) := by
  simp only [Regex.run]
  rw [orElse_isSome, Bool.or_eq_true]
  have hcolon : (match a with
      | [] => none
      | c :: a' => if isChar ':' c = true then
          some (({ before := c :: b, after := a' } : Pos), caps) else none).isSome = true ↔
      ∃ rest, a = ':' :: rest := by
    cases a with
    | nil => simp
    | cons c a' =>
      by_cases hc : isChar ':' c = true
      · have e : c = ':' := by simpa [isChar] using hc
        subst e
        simp [isChar]
      · have e : c ≠ ':' := by simpa [isChar] using hc
        simp [hc, e]
  rw [hcolon]
  constructor
  · rintro (h | h)
    · right
      cases a with
      | nil => simp at h
      | cons c4 a1 =>
        by_cases hc : isChar '(' c4 = true
        · have e : c4 = '(' := by simpa [isChar] using hc
          simp only [hc, if_true] at h
          obtain ⟨x, y, hxy, hx, hk⟩ := (manyRun_isSome _ _ _ _ _).mp h
          dsimp only at hk
          obtain ⟨rest, hy⟩ := (closeColon_isSome y _).mp hk
          refine ⟨x, rest, ?_, by rw [e, hxy, hy]⟩
          intro hmem
          have := hx _ hmem
          simp [dotNoNL] at this
        · simp [hc] at h
    · exact Or.inl h
  · rintro (h | ⟨scope, rest, hn, rfl⟩)
    · exact Or.inr h
    · left
      dsimp only
      rw [show isChar '(' '(' = true from rfl]
      simp only [if_true]
      refine (manyRun_isSome _ _ _ _ _).mpr ⟨scope, ')' :: ':' :: rest, rfl, ?_, ?_⟩
      · intro c hc
        simp only [dotNoNL, bne_iff_ne]
        rintro rfl
        exact hn hc
      · simp [isChar]

theorem MatchString_featRe (m : Str) :
    MatchString featRe m = true ↔ StartsWithFeatMarker m := by
  have hs := search_bot_start
    (litFold "feat".toList
      (.seq (.opt (.group 1 (.seq (.one (isChar '('))
          (.seq (.many dotNoNL) (.one (isChar ')'))))))
        (.one (isChar ':')))) m
  change search featRe [] m = (matchAt featRe ⟨[], m⟩).map _ at hs
  rw [MatchString, hs, Option.isSome_map']
  have hT := fun (b a : List Char) => featTail_isSome b a []
  unfold matchAt featRe
  simp only [show "feat".toList = ['f', 'e', 'a', 't'] from rfl, litFold]
  simp only [Regex.run, List.isEmpty_nil, if_true] at hT ⊢
  constructor
  · intro h
    rcases m with _ | ⟨c1, _ | ⟨c2, _ | ⟨c3, _ | ⟨c4, a⟩⟩⟩⟩
    · simp at h
    · by_cases h1 : foldEq 'f' c1 = true <;> simp [h1] at h
    · by_cases h1 : foldEq 'f' c1 = true <;> by_cases h2 : foldEq 'e' c2 = true <;>
        simp [h1, h2] at h
    · by_cases h1 : foldEq 'f' c1 = true <;> by_cases h2 : foldEq 'e' c2 = true <;>
        by_cases h3 : foldEq 'a' c3 = true <;> simp [h1, h2, h3] at h
    · by_cases h1 : foldEq 'f' c1 = true
      · by_cases h2 : foldEq 'e' c2 = true
        · by_cases h3 : foldEq 'a' c3 = true
          · by_cases h4 : foldEq 't' c4 = true
            · simp only [h1, h2, h3, h4, if_true] at h
              have hf : [c1, c2, c3, c4].map Char.toLower = "feat".toList := by
                simp only [foldEq, beq_iff_eq] at h1 h2 h3 h4
                simp [h1, h2, h3, h4]
              rcases (hT [c4, c3, c2, c1] a).mp h with ⟨rest, rfl⟩ | ⟨scope, rest, hn, rfl⟩
              · exact ⟨[c1, c2, c3, c4], rest, hf, Or.inl rfl⟩
              · exact ⟨[c1, c2, c3, c4], rest, hf, Or.inr ⟨scope, hn, rfl⟩⟩
            · simp [h1, h2, h3, h4] at h
          · simp [h1, h2, h3] at h
        · simp [h1, h2] at h
      · simp [h1] at h
  · rintro ⟨f, rest, hf, hm⟩
    obtain ⟨c1, c2, c3, c4, rfl, h1, h2, h3, h4⟩ := feat_letters f hf
    rcases hm with rfl | ⟨scope, hn, rfl⟩
    · simp only [List.cons_append, List.nil_append, h1, h2, h3, h4, if_true]
      exact (hT [c4, c3, c2, c1] (':' :: rest)).mpr (Or.inl ⟨rest, rfl⟩)
    · simp only [List.cons_append, List.nil_append, h1, h2, h3, h4, if_true]
      exact (hT [c4, c3, c2, c1] _).mpr (Or.inr ⟨scope, rest, hn, rfl⟩)

/-! ## The byline -/

theorem byLoop_eq_joinNames (names : List Str) (n i : Nat) (b : Str)
    (hn : n = i + names.length) : byLoop n i names b = b ++ joinNames names := by
  induction names generalizing i b with
  | nil => simp [byLoop_nil, joinNames]
  | cons name names ih =>
    cases names with
    | nil =>
      have hi : i = n - 1 := by simp at hn; omega
      rw [byLoop, if_pos hi, byLoop_nil]
      simp [joinNames]
    | cons name2 names =>
      have hi : ¬ i = n - 1 := by simp at hn; omega
      rw [byLoop, if_neg hi, ih (i + 1) _ (by simp at hn ⊢; omega)]
      simp [joinNames, List.append_assoc]

theorem joinNames_eq_nil (names : List Str) : joinNames names = [] ↔ names = [] := by
  cases names with
  | nil => simp [joinNames]
  | cons name names =>
    cases names with
    | nil => simp [joinNames]
    | cons name2 names => simp [joinNames]

theorem byline_eq (c : CommitRequest) :
    byline c = c.Commit.Author.Name ++ joinNames (coAuthorNames c.Commit.Message) := by
  simp [byline, byLoop_eq_joinNames]

/-! ## The co-author pattern on trailer lines -/

theorem litFold_run {R : Type} (r : Regex) (k : Pos → Caps → Option R) (x : List Char) :
    ∀ (l b a : List Char) (caps : Caps), x.map Char.toLower = l →
      (litFold l r).run k ⟨b, x ++ a⟩ caps = r.run k ⟨x.reverse ++ b, a⟩ caps := by
  induction x with
  | nil =>
    intro l b a caps h
    simp only [List.map_nil] at h
    subst h
    rfl
  | cons c x ih =>
    intro l b a caps h
    simp only [List.map_cons] at h
    subst h
    have hc : foldEq c.toLower c = true := by simp [foldEq]
    simp only [litFold, Regex.run, List.cons_append, hc, if_true]
    rw [ih _ (c :: b) a caps rfl]
    simp

theorem run_seq {R : Type} (r s : Regex) (k : Pos → Caps → Option R) (pos : Pos)
    (caps : Caps) :
    (Regex.seq r s).run k pos caps = r.run (fun q cs => s.run k q cs) pos caps := rfl

theorem run_bol_newline {R : Type} (k : Pos → Caps → Option R) (b a : List Char)
    (caps : Caps) : Regex.bol.run k ⟨'\n' :: b, a⟩ caps = k ⟨'\n' :: b, a⟩ caps := by
  simp [Regex.run]

theorem coAuthorRe_none_of_not_bol (d : Char) (b a : List Char) (hd : d ≠ '\n') :
    matchAt coAuthorRe ⟨d :: b, a⟩ = none := by
  simp [matchAt, coAuthorRe, Regex.run, hd]

theorem coAuthorRe_none_of_head (b a : List Char)
    (ha : ∀ x ∈ a.head?, foldEq 'c' x = false) : matchAt coAuthorRe ⟨b, a⟩ = none := by
  have hl : "co-authored-by:".toList = 'c' :: "o-authored-by:".toList := rfl
  unfold matchAt coAuthorRe
  rw [hl]
  simp only [litFold, Regex.run]
  cases a with
  | nil => cases b with
    | nil => rfl
    | cons d b => by_cases hd : d = '\n' <;> simp [hd]
  | cons x a =>
    have hx : foldEq 'c' x = false := ha x (by simp)
    cases b with
    | nil => simp [hx]
    | cons d b => by_cases hd : d = '\n' <;> simp [hd, hx]

theorem coAuthorRe_trailer (b mk name rest : List Char) (n0 : Char)
    (hmk : mk.map Char.toLower = "co-authored-by:".toList)
    (hn0 : perlSpace n0 = false) (hname : ∀ x ∈ n0 :: name, notLtNL x = true) :
    matchAt coAuthorRe ⟨'\n' :: b, mk ++ ' ' :: (n0 :: name ++ ' ' :: '<' :: rest)⟩
      = some (⟨' ' :: (name.reverse ++ n0 :: ' ' :: (mk.reverse ++ '\n' :: b)), '<' :: rest⟩,
          [(1, n0 :: name ++ [' '])]) := by
  unfold matchAt coAuthorRe
  rw [run_seq, run_bol_newline]
  rw [litFold_run _ _ mk _ _ _ _ hmk]
  simp only [Regex.run]
  have e1 : (' ' :: (n0 :: name ++ ' ' :: '<' :: rest))
      = [' '] ++ (n0 :: name ++ ' ' :: '<' :: rest) := rfl
  rw [e1]
  apply manyRun_greedy
  · intro c hc
    simp only [List.mem_singleton] at hc
    subst hc
    rfl
  · intro c hc
    simp only [List.cons_append, List.head?_cons, Option.mem_def, Option.some.injEq] at hc
    subst hc
    exact hn0
  · have h0 : notLtNL n0 = true := hname n0 (List.mem_cons_self _ _)
    simp only [List.cons_append, h0, if_true]
    have e2 : name ++ ' ' :: '<' :: rest = (name ++ [' ']) ++ '<' :: rest := by simp
    rw [e2]
    apply manyRun_greedy
    · intro c hc
      rcases List.mem_append.mp hc with hc | hc
      · exact hname c (List.mem_cons_of_mem _ hc)
      · simp only [List.mem_singleton] at hc
        subst hc
        rfl
    · intro c hc
      simp only [List.head?_cons, Option.mem_def, Option.some.injEq] at hc
      subst hc
      rfl
    · have hb := take_length_sub (n0 :: name ++ [' ']) ('<' :: rest)
      simp only [between, List.cons_append, List.append_assoc, List.singleton_append,
        List.reverse_append, List.reverse_cons, List.reverse_nil, List.nil_append] at hb ⊢
      simp only [List.length_cons, List.length_append, List.length_nil] at hb ⊢
      rw [hb]

/-! ## Successive matches of the co-author pattern -/

theorem findAllFrom_step (re : Regex) (n : Nat) (b a : List Char) (c : Char)
    (h : matchAt re ⟨b, c :: a⟩ = none) :
    findAllFrom re n 0 b (c :: a) = findAllFrom re n 0 (c :: b) a := by
  rw [findAllFrom, h]

theorem findAllFrom_skip (re : Regex) (n : Nat) (x : List Char) :
    ∀ (b a : List Char),
      findAllFrom re n x.length b (x ++ a) = findAllFrom re n 0 (x.reverse ++ b) a := by
  induction x with
  | nil => intro b a; rfl
  | cons c x ih =>
    intro b a
    rw [List.length_cons, List.cons_append, findAllFrom, ih (c :: b) a]
    simp

theorem findAllFrom_coAuthorRe_line (n : Nat) (x : List Char) (hx : '\n' ∉ x) :
    ∀ (d : Char) (b a : List Char), d ≠ '\n' →
      findAllFrom coAuthorRe n 0 (d :: b) (x ++ a)
        = findAllFrom coAuthorRe n 0 (x.reverse ++ d :: b) a := by
  induction x with
  | nil => intro d b a _; rfl
  | cons c x ih =>
    intro d b a hd
    have hc : c ≠ '\n' := fun e => hx (e ▸ List.mem_cons_self _ _)
    rw [List.cons_append, findAllFrom_step _ _ _ _ _ (coAuthorRe_none_of_not_bol d b _ hd),
      ih (fun hm => hx (List.mem_cons_of_mem _ hm)) c (d :: b) a hc]
    simp

theorem TrimSpace_head (name : Str) (hne : name ≠ []) (ht : TrimSpace name = name) :
    ∃ n0 rest, name = n0 :: rest ∧ isSpace n0 = false := by
  cases name with
  | nil => exact absurd rfl hne
  | cons n0 rest =>
    refine ⟨n0, rest, rfl, ?_⟩
    by_contra hs
    have hs' : isSpace n0 = true := by simpa using hs
    have hlen : (TrimSpace (n0 :: rest)).length ≤ rest.length := by
      unfold TrimSpace
      rw [List.length_reverse, List.dropWhile_cons_of_pos hs']
      calc ((rest.dropWhile isSpace).reverse.dropWhile isSpace).length
          ≤ (rest.dropWhile isSpace).reverse.length :=
            (List.dropWhile_sublist _).length_le
        _ = (rest.dropWhile isSpace).length := List.length_reverse _
        _ ≤ rest.length := (List.dropWhile_sublist _).length_le
    rw [ht] at hlen
    simp at hlen

theorem TrimSpace_append_space (name : Str) (hne : name ≠ []) (ht : TrimSpace name = name) :
    TrimSpace (name ++ [' ']) = name := by
  obtain ⟨n0, rest, rfl, hs⟩ := TrimSpace_head name hne ht
  have h1 : (n0 :: rest ++ [' ']).dropWhile isSpace = n0 :: rest ++ [' '] := by
    simp [List.dropWhile_cons, hs]
  have h2 : (n0 :: rest).dropWhile isSpace = n0 :: rest := by
    simp [List.dropWhile_cons, hs]
  have hsp : isSpace ' ' = true := by decide
  unfold TrimSpace at ht ⊢
  rw [h2] at ht
  rw [h1, List.reverse_append, List.reverse_singleton, List.singleton_append,
    List.dropWhile_cons_of_pos hsp, ht]

theorem Trailer.line_eq (t : Trailer) (n0 : Char) (rest : Str) (hn : t.name = n0 :: rest)
    (tail : Str) :
    t.line ++ tail
      = t.marker ++ ' ' :: (n0 :: rest ++ ' ' :: '<' :: (t.mail ++ '>' :: tail)) := by
  simp [Trailer.line, hn, List.append_assoc]

theorem findAllFrom_trailerBlock (ts : List Trailer) (hts : ∀ t ∈ ts, t.WellFormed) :
    ∀ b : List Char, findAllFrom coAuthorRe 1 0 b (trailerBlock ts)
      = ts.map (fun t => [t.marker ++ ' ' :: (t.name ++ [' ']), t.name ++ [' ']]) := by
  induction ts with
  | nil =>
    intro b
    simp [trailerBlock, findAllFrom, coAuthorRe_none_of_head b [] (by simp)]
  | cons t ts ih =>
    intro b
    obtain ⟨hmk, hne, htrim, hname, hmail⟩ := hts t (List.mem_cons_self _ _)
    obtain ⟨n0, rest, hn, hs⟩ := TrimSpace_head t.name hne htrim
    have hp : perlSpace n0 = false := by
      by_contra hc
      have := perlSpace_isSpace n0 (by simpa using hc)
      rw [hs] at this
      exact absurd this (by simp)
    have hname' : ∀ x ∈ n0 :: rest, notLtNL x = true := by rw [← hn]; exact hname
    have hblock : trailerBlock (t :: ts) = '\n' :: (t.line ++ trailerBlock ts) := by
      simp [trailerBlock]
    obtain ⟨m0, mk, hm⟩ : ∃ m0 mk, t.marker = m0 :: mk := by
      cases hmm : t.marker with
      | nil => rw [hmm] at hmk; exact absurd hmk (by decide)
      | cons m0 mk => exact ⟨m0, mk, rfl⟩
    have hmatch := coAuthorRe_trailer b t.marker rest (t.mail ++ '>' :: trailerBlock ts) n0
      hmk hp hname'
    rw [hblock, findAllFrom_step _ _ _ _ _
      (coAuthorRe_none_of_head b _ (by simp [foldEq])),
      Trailer.line_eq t n0 rest hn]
    rw [hm] at hmatch ⊢
    rw [List.cons_append] at hmatch
    rw [List.cons_append, findAllFrom, hmatch]
    simp only []
    have hlen : (m0 :: (mk ++ ' ' :: (n0 :: rest ++ ' ' :: '<' ::
          (t.mail ++ '>' :: trailerBlock ts)))).length
        - ('<' :: (t.mail ++ '>' :: trailerBlock ts)).length - 1
        = (mk ++ ' ' :: (n0 :: rest ++ [' '])).length := by
      simp only [List.length_cons, List.length_append, List.length_nil]
      omega
    have hsplit : mk ++ ' ' :: (n0 :: rest ++ ' ' :: '<' :: (t.mail ++ '>' :: trailerBlock ts))
        = (mk ++ ' ' :: (n0 :: rest ++ [' '])) ++
          (('<' :: (t.mail ++ ['>'])) ++ trailerBlock ts) := by
      simp [List.append_assoc]
    rw [hlen, hsplit, findAllFrom_skip]
    have hrev : (mk ++ ' ' :: (n0 :: rest ++ [' '])).reverse ++ m0 :: '\n' :: b
        = ' ' :: ((n0 :: rest).reverse ++ ' ' :: (mk.reverse ++ m0 :: '\n' :: b)) := by
      simp [List.append_assoc]
    have hml : '\n' ∉ '<' :: (t.mail ++ ['>']) := by
      simp only [List.mem_cons, List.mem_append, List.mem_singleton, not_or]
      exact ⟨by decide, hmail, by decide⟩
    rw [hrev, findAllFrom_coAuthorRe_line 1 ('<' :: (t.mail ++ ['>'])) hml ' ' _ _ (by decide),
      ih (fun t' ht' => hts t' (List.mem_cons_of_mem _ ht'))]
    have hbw := take_length_sub (m0 :: (mk ++ ' ' :: (n0 :: rest ++ [' '])))
      ('<' :: (t.mail ++ ['>']) ++ trailerBlock ts)
    have hstop : '<' :: (t.mail ++ '>' :: trailerBlock ts)
        = '<' :: (t.mail ++ ['>']) ++ trailerBlock ts := by simp
    rw [hstop]
    simp only [List.map_cons, submatches, between, List.cons_append] at hbw ⊢
    rw [hbw]
    simp [List.range, List.range.loop, groupText, hm, hn]

theorem namesLoop_trailers (ts : List Trailer) (hts : ∀ t ∈ ts, t.WellFormed) :
    ∀ names : List Str,
      namesLoop (ts.map (fun t => [t.marker ++ ' ' :: (t.name ++ [' ']), t.name ++ [' ']])) names
        = names ++ ts.map (fun t => t.name) := by
  induction ts with
  | nil => intro names; simp [namesLoop]
  | cons t ts ih =>
    intro names
    obtain ⟨_, hne, htrim, _, _⟩ := hts t (List.mem_cons_self _ _)
    have ht : TrimSpace (t.name ++ [' ']) = t.name := TrimSpace_append_space t.name hne htrim
    rw [List.map_cons, namesLoop]
    simp only [List.getD_cons_succ, List.getD_cons_zero, ht]
    rw [if_pos hne, ih (fun t' ht' => hts t' (List.mem_cons_of_mem _ ht'))]
    simp

theorem coAuthorNames_trailers (line1 : Str) (ts : List Trailer) (h1 : '\n' ∉ line1)
    (h2 : ∀ x ∈ line1.head?, foldEq 'c' x = false) (hts : ∀ t ∈ ts, t.WellFormed) :
    coAuthorNames (line1 ++ '\n' :: trailerBlock ts) = ts.map (fun t => t.name) := by
  have hnl : ∀ b : List Char, matchAt coAuthorRe ⟨b, '\n' :: trailerBlock ts⟩ = none :=
    fun b => coAuthorRe_none_of_head b _ (by simp [foldEq])
  have hall : FindAllStringSubmatch coAuthorRe 1 (line1 ++ '\n' :: trailerBlock ts)
      = ts.map (fun t => [t.marker ++ ' ' :: (t.name ++ [' ']), t.name ++ [' ']]) := by
    unfold FindAllStringSubmatch
    cases line1 with
    | nil =>
      rw [List.nil_append, findAllFrom_step _ _ _ _ _ (hnl []),
        findAllFrom_trailerBlock ts hts]
    | cons c0 l =>
      have hc0 : c0 ≠ '\n' := fun e => h1 (e ▸ List.mem_cons_self _ _)
      rw [List.cons_append, findAllFrom_step _ _ _ _ _
        (coAuthorRe_none_of_head [] _ (by simpa using h2 c0 (by simp))),
        findAllFrom_coAuthorRe_line 1 l (fun hm => h1 (List.mem_cons_of_mem _ hm)) c0 [] _ hc0,
        findAllFrom_step _ _ _ _ _ (hnl _), findAllFrom_trailerBlock ts hts]
  rw [coAuthorNames, hall, namesLoop_trailers ts hts, List.nil_append]

theorem takeWhile_line (line1 rest : Str) (h1 : '\n' ∉ line1) :
    (line1 ++ '\n' :: rest).takeWhile (fun x => x != '\n') = line1 := by
  induction line1 with
  | nil => simp
  | cons c l ih =>
    have hc : c ≠ '\n' := fun e => h1 (e ▸ List.mem_cons_self _ _)
    simp [List.takeWhile_cons, hc, ih (fun hm => h1 (List.mem_cons_of_mem _ hm))]

/-! ## The claims of the specification -/

/-- C1: for every fetched list of feat commits and every marker, the list
`newCommits` built by `sendNewCommits` is the longest prefix of the fetched
list without a commit whose SHA is the marker: it is a prefix, none of its
commits has the marker as SHA, every marker-free prefix is a prefix of it, the
commit right after it (if any) has the marker as SHA, and it is the whole list
when no SHA is the marker. -/
theorem newCommits_longest_marker_free (lastSent : Str) (feats : List CommitRequest) :
    newCommitsLoop lastSent feats [] <+: feats ∧
    (∀ c ∈ newCommitsLoop lastSent feats [], c.SHA ≠ lastSent) ∧
    (∀ p : List CommitRequest, p <+: feats → (∀ c ∈ p, c.SHA ≠ lastSent) →
      p <+: newCommitsLoop lastSent feats []) ∧
    (∀ c rest, feats = newCommitsLoop lastSent feats [] ++ c :: rest → c.SHA = lastSent) ∧
    ((∀ c ∈ feats, c.SHA ≠ lastSent) → newCommitsLoop lastSent feats [] = feats) ∧
    (∀ (channelID : Str) (env : Env) (file : Option Str) (commits : List CommitRequest),
      env.response = some commits →
      (sendNewCommits channelID env file).batch
        = newCommitsLoop (loadCache file) (featsLoop commits []) []) := by
  rw [newCommitsLoop_eq, List.nil_append]
  refine ⟨ List.takeWhile_prefix _, ?_, ?_, ?_, ?_, ?_⟩
  · intro c hc
    simpa using List.mem_takeWhile_imp hc
  · intro p hp hall
    exact takeWhile_longest _ feats p hp (fun x hx => by simpa using hall x hx)
  · intro c rest h
    simpa using next_after_takeWhile _ feats c rest h
  · intro hall
    exact List.takeWhile_eq_self_iff.mpr (fun x hx => by simpa using hall x hx)
  · intro channelID env file commits hresp
    rw [sendNewCommits_batch channelID env file commits hresp, newCommitsLoop_eq,
      List.nil_append]

/-- Witness of C1 on the example of the specification: fetched `[C3, C2, C1]`,
marker the SHA of `C2`. -/
theorem newCommits_longest_marker_free_witness :
    newCommitsLoop "c2".toList [commitC3, commitC2, commitC1] [] = [commitC3] ∧
    newCommitsLoop "c2".toList [commitC3, commitC2, commitC1] []
      <+: [commitC3, commitC2, commitC1] :=
  ⟨by decide,
    (newCommits_longest_marker_free "c2".toList [commitC3, commitC2, commitC1]).1⟩

/-- C2: for every decoded list of commits, the filtering step of
`getFeatCommits` returns exactly the commits whose message starts with `feat`
in any letter case, optionally followed by a parenthesized scope, then a colon,
in the order received: the result is the input filtered by the pattern, the
pattern matches exactly the messages of that form, a commit is in the result
if and only if it is in the input and has that form, and the result is a
sublist of the input. -/
theorem getFeatCommits_keeps_exactly_feat_commits (commits : List CommitRequest) :
    getFeatCommits (some commits)
      = some (commits.filter (fun c => MatchString featRe c.Commit.Message)) ∧
    (∀ m : Str, MatchString featRe m = true ↔ StartsWithFeatMarker m) ∧
    (∀ feats, getFeatCommits (some commits) = some feats →
      (∀ c, c ∈ feats ↔ c ∈ commits ∧ StartsWithFeatMarker c.Commit.Message) ∧
      feats.Sublist commits) := by
  have hg : getFeatCommits (some commits)
      = some (commits.filter (fun c => MatchString featRe c.Commit.Message)) := by
    simp [getFeatCommits, featsLoop_eq]
  refine ⟨hg, MatchString_featRe, ?_⟩
  intro feats hf
  rw [hg] at hf
  obtain rfl : commits.filter (fun c => MatchString featRe c.Commit.Message) = feats := by
    simpa using hf
  refine ⟨fun c => ?_, List.filter_sublist commits⟩
  rw [List.mem_filter, MatchString_featRe]

/-- Witness of C2: of six commits the fetcher keeps the three whose message
starts with the marker, in their order; `fix:`, `feature:` and a scope broken
over two lines are dropped. -/
theorem getFeatCommits_keeps_exactly_feat_commits_witness :
    getFeatCommits (some mixedListing)
      = some [exCommit "a" "feat: x", exCommit "c" "FEAT(ui): z", exCommit "f" "Feat(): u"] :=
  (getFeatCommits_keeps_exactly_feat_commits mixedListing).1.trans (by decide)

/-- C3: in every tick in which the send fails or no send is attempted, the
file `.cache` after the tick is the file before it and `saveCache` is not
called; no send is attempted exactly on a fetch error, on an empty list of feat
commits and on an empty `newCommits`. -/
theorem marker_unchanged_without_successful_send (channelID : Str) (env : Env)
    (file : Option Str)
    (h : env.sendOk = false ∨ (sendNewCommits channelID env file).sends = []) :
    (sendNewCommits channelID env file).file = file ∧
    (sendNewCommits channelID env file).saves = [] ∧
    (sendNewCommits channelID env file).delivered = false ∧
    ((sendNewCommits channelID env file).sends = [] ↔
      (getFeatCommits env.response = none ∨ getFeatCommits env.response = some [] ∨
        (sendNewCommits channelID env file).batch = [])) := by
  unfold sendNewCommits at h ⊢
  cases hf : getFeatCommits env.response with
  | none => simp
  | some feats =>
    cases feats with
    | nil => simp
    | cons c0 rest =>
      simp only [hf] at h
      simp only []
      by_cases hn : (newCommitsLoop (loadCache file) (c0 :: rest) []).length = 0
      · simp [hn, List.length_eq_zero.mp hn]
      · have hne : newCommitsLoop (loadCache file) (c0 :: rest) [] ≠ [] :=
          fun e => hn (by rw [e]; rfl)
        by_cases hs : env.sendOk = true
        · simp [hn, hs] at h
        · simp [hn, hs, hne]

/-- Witness of C3: the listing returns `[C3, C2, C1]`, the marker is the SHA of
`C2`, and the send fails. -/
theorem marker_unchanged_without_successful_send_witness :
    (sendNewCommits "chan".toList ⟨some [commitC3, commitC2, commitC1], false, true⟩
      (some "c2".toList)).file = some "c2".toList :=
  (marker_unchanged_without_successful_send "chan".toList
    ⟨some [commitC3, commitC2, commitC1], false, true⟩ (some "c2".toList) (Or.inl rfl)).1

/-- C4, amended: in every tick whose send succeeds, the one SHA handed to
`saveCache` afterwards is the SHA of the first (newest) commit of the batch
just sent, which is `feats[0]`, and it is the new content of `.cache` when the
write succeeds; hence after any sequence of ticks in which every write of
`.cache` succeeds, once a send has succeeded, the content of `.cache` is the
SHA of the newest commit of the last successfully sent batch. -/
theorem marker_is_newest_of_last_sent_batch (channelID : Str) (envs : List Env)
    (file : Option Str) (hw : ∀ e ∈ envs, e.writeOk = true) :
    (∀ (env : Env) (file0 : Option Str),
      (sendNewCommits channelID env file0).delivered = true →
      ∃ c rest feats, (sendNewCommits channelID env file0).batch = c :: rest ∧
        getFeatCommits env.response = some (c :: feats) ∧
        (sendNewCommits channelID env file0).saves = [c.SHA] ∧
        (env.writeOk = true → (sendNewCommits channelID env file0).file = some c.SHA)) ∧
    (∀ b : List CommitRequest,
      (runTicks channelID envs ⟨file, none⟩).lastBatch = some b →
      ∃ c rest, b = c :: rest ∧
        (runTicks channelID envs ⟨file, none⟩).file = some c.SHA) := by
  constructor
  · intro env file0 h
    obtain ⟨c, rest, feats, hb, hf, hsv, hfl⟩ := delivered_tick channelID env file0 h
    exact ⟨c, rest, feats, hb, hf, hsv, fun hw => by simp [hfl, saveCache, hw]⟩
  · exact runTicks_file channelID envs ⟨file, none⟩ hw (by intro b hb; simp at hb)

/-- Witness of C4, amended: two ticks from an absent `.cache`, the listing
being `[C1]` and then `[C3, C2, C1]`; the last batch sent is `[C3, C2]` and
`.cache` holds the SHA of `C3`. -/
theorem marker_is_newest_of_last_sent_batch_witness :
    runTicks "chan".toList [envC1, envC321] ⟨none, none⟩
      = ⟨some "c3".toList, some [commitC3, commitC2]⟩ ∧
    (∃ c rest, [commitC3, commitC2] = c :: rest ∧
      (runTicks "chan".toList [envC1, envC321] ⟨none, none⟩).file = some c.SHA) ∧
    (sendNewCommits "chan".toList envC321 (some "c1".toList)).saves = ["c3".toList] ∧
    ∃ c rest feats,
      (sendNewCommits "chan".toList envC321 (some "c1".toList)).batch = c :: rest ∧
      getFeatCommits envC321.response = some (c :: feats) ∧
      (sendNewCommits "chan".toList envC321 (some "c1".toList)).saves = [c.SHA] ∧
      (envC321.writeOk = true →
        (sendNewCommits "chan".toList envC321 (some "c1".toList)).file = some c.SHA) :=
  ⟨by decide,
    (marker_is_newest_of_last_sent_batch "chan".toList [envC1, envC321] none
      (by decide)).2 [commitC3, commitC2] (by decide),
    by decide,
    (marker_is_newest_of_last_sent_batch "chan".toList [envC1, envC321] none
      (by decide)).1 envC321 (some "c1".toList) (by decide)⟩

/-- Counterexample to C4 as stated: the first tick sends `[C1]` and writes its
SHA; the second sends `[C2]` and its write of `.cache` fails. After the two
ticks the last batch sent is `[C2]` and the marker in `.cache`, written by the
program, is still the SHA of `C1`. -/
theorem marker_stale_after_failed_write :
    runTicks "chan".toList [envC1, envC21WriteFails] ⟨none, none⟩
      = ⟨some "c1".toList, some [commitC2]⟩ ∧
    (sendNewCommits "chan".toList envC21WriteFails (some "c1".toList)).delivered = true ∧
    (sendNewCommits "chan".toList envC21WriteFails (some "c1".toList)).saves
      = ["c2".toList] ∧
    commitC2.SHA ≠ "c1".toList := by
  decide

/-- C5: for every initial content of `.cache` and every fetched list of
commits (their SHAs being git object names, as the listing endpoint returns
them), running `sendNewCommits` twice over the same listing, the send and the
write of the first run succeeding, sends no message on the second run; and
whenever the first run calls `saveCache`, the marker `loadCache` reads back is
the whitespace-trimmed form of the SHA written, which is that SHA. -/
theorem second_run_sends_nothing (channelID : Str) (file : Option Str)
    (commits : List CommitRequest) (e1 e2 : Env)
    (h1 : e1.response = some commits) (h2 : e2.response = some commits)
    (hs : e1.sendOk = true) (hw : e1.writeOk = true)
    (hsha : ∀ c ∈ commits, isGitSHA c.SHA = true) :
    (sendNewCommits channelID e2 (sendNewCommits channelID e1 file).file).sends = [] ∧
    (∀ sha, (sendNewCommits channelID e1 file).saves = [sha] →
      loadCache (sendNewCommits channelID e1 file).file = TrimSpace sha ∧
      TrimSpace sha = sha) := by
  have htrim : ∀ c tail, featsLoop commits [] = c :: tail → TrimSpace c.SHA = c.SHA := by
    intro c tail hc
    have hmem : c ∈ featsLoop commits [] := by rw [hc]; exact List.mem_cons_self _ _
    rw [featsLoop_eq, List.nil_append] at hmem
    exact TrimSpace_gitSHA c.SHA (hsha c (List.mem_filter.mp hmem).1)
  refine ⟨second_tick_silent channelID file commits e1 e2 h1 h2 hs hw htrim, ?_⟩
  intro sha hsha'
  by_cases hd : (sendNewCommits channelID e1 file).delivered = true
  · obtain ⟨c, rest, feats, _, hfe, hsv, hfl⟩ := delivered_tick channelID e1 file hd
    rw [hsv] at hsha'
    obtain rfl : c.SHA = sha := by simpa using hsha'
    have hc : featsLoop commits [] = c :: feats := by
      simpa [getFeatCommits, h1] using hfe
    exact ⟨by simp [hfl, saveCache, hw, loadCache], htrim c feats hc⟩
  · have hd' : (sendNewCommits channelID e1 file).delivered = false := by simpa using hd
    rw [(undelivered_tick channelID e1 file hd').1] at hsha'
    simp at hsha'

/-- Witness of C5: two ticks over `[C3, C2, C1]` from the marker of `C2`; the
first sends a message and the second sends none. -/
theorem second_run_sends_nothing_witness :
    (sendNewCommits "chan".toList envC321 (some "c2".toList)).sends ≠ [] ∧
    (sendNewCommits "chan".toList envC321
      (sendNewCommits "chan".toList envC321 (some "c2".toList)).file).sends = [] :=
  ⟨by decide,
    (second_run_sends_nothing "chan".toList (some "c2".toList)
      [commitC3, commitC2, commitC1] envC321 envC321 rfl rfl rfl rfl (by decide)).1⟩

/-- C6: in every tick whose `newCommits` is non-empty, `ChannelMessageSend` is
called exactly once, and the text is the header followed by the rendering of
each new commit, oldest first (the reverse of the fetched order), each followed
by a line break; with an empty marker and no empty SHA among the feat commits,
the new commits are all the feat commits. -/
theorem one_message_oldest_first (channelID : Str) (env : Env) (file : Option Str)
    (h : (sendNewCommits channelID env file).batch ≠ []) :
    (sendNewCommits channelID env file).sends =
      [(channelID, header ++
        (((sendNewCommits channelID env file).batch.reverse.map
          (fun c => formatCommitMessage c ++ "\n".toList)).flatten))] ∧
    (∀ commits, env.response = some commits → loadCache file = [] →
      (∀ c ∈ featsLoop commits [], c.SHA ≠ []) →
      (sendNewCommits channelID env file).batch = featsLoop commits []) := by
  constructor
  · unfold sendNewCommits at h ⊢
    cases hf : getFeatCommits env.response with
    | none => simp [hf] at h
    | some feats =>
      cases feats with
      | nil => simp [hf] at h
      | cons c0 rest =>
        simp only [hf] at h
        simp only []
        by_cases hn : (newCommitsLoop (loadCache file) (c0 :: rest) []).length = 0
        · simp [hn, List.length_eq_zero.mp hn] at h
        · have hm := msgLoop_eq (newCommitsLoop (loadCache file) (c0 :: rest) [])
            (newCommitsLoop (loadCache file) (c0 :: rest) []).length header (Nat.le_refl _)
          rw [List.take_length] at hm
          by_cases hs : env.sendOk = true
          · simp [hn, hs, hm]
          · simp [hn, hs, hm]
  · intro commits hresp hload hsha
    rw [sendNewCommits_batch channelID env file commits hresp]
    exact newCommitsLoop_eq_self _ _ (fun c hc => by rw [hload]; exact hsha c hc)

/-- Witness of C6 on the example of the specification: no marker and fetched
`[C3, C2, C1]`; the message lists `C1`, then `C2`, then `C3` under the header. -/
theorem one_message_oldest_first_witness :
    (sendNewCommits "chan".toList envC321 none).batch = [commitC3, commitC2, commitC1] ∧
    (sendNewCommits "chan".toList envC321 none).sends =
      [("chan".toList, header ++
        (formatCommitMessage commitC1 ++ "\n".toList) ++
        (formatCommitMessage commitC2 ++ "\n".toList) ++
        (formatCommitMessage commitC3 ++ "\n".toList))] :=
  ⟨by decide, by
    have hb : (sendNewCommits "chan".toList envC321 none).batch
        = [commitC3, commitC2, commitC1] := by decide
    rw [(one_message_oldest_first "chan".toList envC321 none (by decide)).1, hb]
    simp⟩

/-- C7: the byline on a message whose only `co-authored-by:` line is blank. The
`\s*` of the co-author pattern also matches line breaks, so the name is taken
from the line after it: the byline is `Al and Signed-off-by: Bob`, where the
claim has the author alone. On the message of the specification the byline is
`Al and Jane Doe`. -/
theorem byline_takes_name_from_next_line :
    coAuthorNames commitBlankCoAuthor.Commit.Message = ["Signed-off-by: Bob".toList] ∧
    byline commitBlankCoAuthor = "Al and Signed-off-by: Bob".toList ∧
    formatCommitMessage commitBlankCoAuthor
      = "[api: add foo](https://x/c7)\nby Al and Signed-off-by: Bob, at 05/03/2024, 14:02 PM\n".toList ∧
    byline (exCommit "c0" "feat(api): add foo\n\nco-authored-by: Jane Doe <j@x.com>")
      = "Al and Jane Doe".toList := by
  decide

/-- C8, amended: for every commit whose message matches the pattern of the
formatter (`feat` in any letter case, optionally a parenthesized scope that is
non-empty and has no `)` in it, then a colon) and has no line break in the
scope or in the white space right after the colon, the link text is, without
scope, the text between the colon and the first line break of the message,
whitespace-trimmed, and with a scope the whitespace-trimmed form of the scope,
`: `, and that text with its leading white space skipped; the first line of
the message is the marker followed by that text, so nothing after the first
line break of the message appears in the link text. -/
theorem link_text_of_parsed_message (c : CommitRequest) (f rest : Str)
    (hf : f.map Char.toLower = "feat".toList) (hnl : '\n' ∉ rest.takeWhile perlSpace) :
    (c.Commit.Message = f ++ ':' :: rest →
      linkText c = TrimSpace (rest.takeWhile (fun x => x != '\n')) ∧
      c.Commit.Message.takeWhile (fun x => x != '\n')
        = f ++ ':' :: rest.takeWhile (fun x => x != '\n')) ∧
    (∀ scope : Str, scope ≠ [] → ')' ∉ scope → '\n' ∉ scope →
      c.Commit.Message = f ++ '(' :: (scope ++ ')' :: ':' :: rest) →
      linkText c = TrimSpace (scope ++ ": ".toList ++
        (rest.takeWhile (fun x => x != '\n')).dropWhile perlSpace) ∧
      c.Commit.Message.takeWhile (fun x => x != '\n')
        = f ++ '(' :: (scope ++ ')' :: ':' :: rest.takeWhile (fun x => x != '\n'))) := by
  obtain ⟨c1, c2, c3, c4, hfe, h1, h2, h3, h4⟩ := feat_letters f hf
  have n1 := foldEq_ne_newline c1 'f' h1 (by decide)
  have n2 := foldEq_ne_newline c2 'e' h2 (by decide)
  have n3 := foldEq_ne_newline c3 'a' h3 (by decide)
  have n4 := foldEq_ne_newline c4 't' h4 (by decide)
  constructor
  · intro hm
    constructor
    · simp only [linkText, hm, scopeAndMsg_unscoped f rest hf, SplitN2_head,
        dropWhile_takeWhile_line perlSpace rest hnl]
      simpa using TrimSpace_dropWhile_perlSpace _
    · rw [hm, hfe]
      simp [List.takeWhile_cons, n1, n2, n3, n4]
  · intro scope hne hp hsn hm
    constructor
    · simp only [linkText, hm, scopeAndMsg_scoped f scope rest hf hne hp, SplitN2_head,
        dropWhile_takeWhile_line perlSpace rest hnl]
      simp [hne]
    · rw [hm, hfe]
      have hs : ∀ x ∈ scope, (x != '\n') = true := fun x hx => by
        simp only [bne_iff_ne]
        rintro rfl
        exact hsn hx
      simp [List.takeWhile_cons, n1, n2, n3, n4, List.takeWhile_append, 
        List.takeWhile_eq_self_iff.mpr hs]

/-- Witness of C8, amended, on the message of the specification: the link text
is `api: add foo`. -/
theorem link_text_of_parsed_message_witness :
    linkText commitSpec = "api: add foo".toList :=
  ((link_text_of_parsed_message commitSpec "feat".toList
      " add foo\n\nco-authored-by: Jane Doe <j@x.com>".toList (by decide) (by decide)).2
    "api".toList (by decide) (by decide) (by decide) (by decide)).1.trans (by decide)

/-- Counterexample to C8 as stated: the message `feat(ui)(web): add foo` starts
with the feat marker of the fetcher, and its link text is the whole line,
marker included, not the text after the colon; and on `feat(api):` followed by
a line break the link text `api: add foo` is taken from the second line of the
message. -/
theorem link_text_keeps_marker_or_takes_later_line :
    MatchString featRe commitTwoScopes.Commit.Message = true ∧
    linkText commitTwoScopes = "feat(ui)(web): add foo".toList ∧
    commitBreakAfterColon.Commit.Message.takeWhile (fun x => x != '\n')
      = "feat(api):".toList ∧
    linkText commitBreakAfterColon = "api: add foo".toList := by
  decide

/-- C9: the timestamp `formatCommitMessage` prints. The layout
`"02/01/2006, 15:03 PM"` renders day, month and year as the claim says, then
the hour on the 24-hour clock, and after the colon not the minute but the hour
again on the 12-hour clock (`03`; the minute is `04`), followed by `AM` or `PM`.
For the author date 5 March 2024, 14:37 the output ends in
`05/03/2024, 14:02 PM`, where the claim has the minute `37`. -/
theorem timestamp_repeats_hour_for_minute :
    (∀ c : CommitRequest, timestamp c =
      appendInt c.Commit.Author.Date.Day 2 ++ "/".toList ++
      appendInt c.Commit.Author.Date.Month 2 ++ "/".toList ++
      appendInt c.Commit.Author.Date.Year 4 ++ ", ".toList ++
      appendInt c.Commit.Author.Date.Hour 2 ++ ":".toList ++
      appendInt (hour12 c.Commit.Author.Date.Hour) 2 ++ " ".toList ++
      (if c.Commit.Author.Date.Hour ≥ 12 then "PM".toList else "AM".toList)) ∧
    exDate.Hour = 14 ∧ exDate.Minute = 37 ∧
    timestamp (exCommit "c1" "feat: one") = "05/03/2024, 14:02 PM".toList ∧
    formatCommitMessage (exCommit "c1" "feat: one")
      = "[one](https://x/c1)\nby Al, at 05/03/2024, 14:02 PM\n".toList := by
  refine ⟨fun c => ?_, rfl, rfl, by decide, by decide⟩
  simp [timestamp, Time.Format, dateLayout, layoutChunks, formatChunk]

/-- C10, amended: `formatCommitMessage` is total, every commit getting an
output of the one frame, and for every commit whose message the pattern of the
formatter does not match, the summary is the first line of the whole message,
whitespace-trimmed, with no scope prefix; the co-authors are still added: the
byline is the author name followed by the co-author names found in the message,
joined with `, ` and the last with ` and `, so it is the author name alone
exactly when no co-author name is found; when the message is a first line, a
blank line and co-author trailers `co-authored-by: NAME <MAIL>`, the names
found are the NAMEs of the trailers in their order. -/
theorem unparsed_message_best_effort (c : CommitRequest)
    (h : FindStringSubmatch summaryRe 2 c.Commit.Message = []) :
    linkText c = TrimSpace (c.Commit.Message.takeWhile (fun x => x != '\n')) ∧
    byline c = c.Commit.Author.Name ++ joinNames (coAuthorNames c.Commit.Message) ∧
    (byline c = c.Commit.Author.Name ↔ coAuthorNames c.Commit.Message = []) ∧
    (∀ (line1 : Str) (ts : List Trailer), '\n' ∉ line1 →
      (∀ x ∈ line1.head?, foldEq 'c' x = false) → (∀ t ∈ ts, t.WellFormed) →
      c.Commit.Message = line1 ++ '\n' :: trailerBlock ts →
      linkText c = TrimSpace line1 ∧
      coAuthorNames c.Commit.Message = ts.map (fun t => t.name) ∧
      byline c = c.Commit.Author.Name ++ joinNames (ts.map (fun t => t.name))) ∧
    formatCommitMessage c =
      "[".toList ++ TrimSpace (c.Commit.Message.takeWhile (fun x => x != '\n')) ++
        "](".toList ++ c.HTMLURL ++ ")\nby ".toList ++
        (c.Commit.Author.Name ++ joinNames (coAuthorNames c.Commit.Message)) ++
        ", at ".toList ++ c.Commit.Author.Date.Format dateLayout ++ "\n".toList ∧
    (∀ d : CommitRequest, ∃ link names stamp : Str,
      formatCommitMessage d =
        "[".toList ++ link ++ "](".toList ++ d.HTMLURL ++ ")\nby ".toList ++
          (d.Commit.Author.Name ++ names) ++ ", at ".toList ++ stamp ++ "\n".toList) := by
  have hl : linkText c = TrimSpace (c.Commit.Message.takeWhile (fun x => x != '\n')) := by
    simp only [linkText, scopeAndMsg, h, SplitN2_head]
    simp
  refine ⟨hl, byline_eq c, ?_, ?_, ?_, ?_⟩
  · rw [byline_eq, List.append_right_eq_self, joinNames_eq_nil]
  · intro line1 ts h1 h2 hts hm
    have hn : coAuthorNames c.Commit.Message = ts.map (fun t => t.name) := by
      rw [hm]; exact coAuthorNames_trailers line1 ts h1 h2 hts
    refine ⟨?_, hn, ?_⟩
    · rw [hl, hm, takeWhile_line line1 _ h1]
    · rw [byline_eq, hn]
  · rw [formatCommitMessage, hl, byline_eq]
    rfl
  · intro d
    exact ⟨linkText d, joinNames (coAuthorNames d.Commit.Message), timestamp d, by
      rw [formatCommitMessage, byline_eq]⟩

/-- Witness of C10, amended: an unparsed first line, a blank line and two
co-author trailers; the summary is the first line and the byline has both
names. -/
theorem unparsed_message_best_effort_witness :
    linkText commitTwoCoAuthors = "feat(): drop bar".toList ∧
    byline commitTwoCoAuthors = "Al, Bob and Jane Doe".toList :=
  have h := (unparsed_message_best_effort commitTwoCoAuthors (by decide)).2.2.2.1
    "feat(): drop bar".toList
    [⟨"Co-authored-by:".toList, "Bob".toList, "bob@x.io".toList⟩,
      ⟨"co-authored-by:".toList, "Jane Doe".toList, "j@x.com".toList⟩]
    (by decide) (by decide) (by decide) (by decide)
  ⟨h.1.trans (by decide), h.2.2.trans (by decide)⟩

/-- Counterexample to C10 as stated: the message of `commitEmptyScope` passes
the filter of the fetcher, the pattern of the formatter does not match it, and
yet the summary is its first line only, not the whole message, and the byline
has the co-author. -/
theorem unparsed_message_keeps_coauthors :
    MatchString featRe commitEmptyScope.Commit.Message = true ∧
    FindStringSubmatch summaryRe 2 commitEmptyScope.Commit.Message = [] ∧
    linkText commitEmptyScope = "feat(): drop bar".toList ∧
    linkText commitEmptyScope ≠ TrimSpace commitEmptyScope.Commit.Message ∧
    byline commitEmptyScope = "Al and Bob".toList ∧
    byline commitEmptyScope ≠ commitEmptyScope.Commit.Author.Name := by
  decide

end Plumbot
